import Mathlib

/-!
# Verification of the SubnetSmith address-space core

A shallow embedding, in Lean 4, of the IPv4 subnetting core of the
SubnetSmith repository, together with theorems settling the frozen claims
about it.

Embedding conventions:

* JavaScript strings are modelled as `List Char` (abbreviated `Str`): the
  source only ever manipulates ASCII text (digits, dots, slashes, letters),
  where a JS string is exactly a sequence of those characters.
* JavaScript numbers are modelled as `Nat`.  Every arithmetic step of the
  source that can be observed by the claims stays below `2 ^ 53`, where JS
  number arithmetic is exact; the `>>> 0` coercions of the source are
  modelled as `% 2 ^ 32`, and `&`, `|`, `~` on 32-bit values as `Nat.land`,
  `Nat.lor` and subtraction from `2 ^ 32 - 1`.
* `x << 8 | y` inside `ipToInt` operates on 32-bit integers; its unsigned
  value is `((x * 256) % 2 ^ 32) ||| (y % 2 ^ 32)`, which is how it is
  written here.
* `parseInt(s, 10)` is modelled by `parseIntJS`, the value of the longest
  leading run of decimal digits; when there is no digit at all, `parseInt`
  returns `NaN`, which every bitwise consumer in the source coerces to `0`,
  so `parseIntJS` returns `0` in that case.
-/

namespace SubnetSmith

/-- JS strings, as sequences of characters. -/
abbrev Str := List Char

/-- Value of a decimal digit character. -/
def digitVal (c : Char) : Nat := c.toNat - '0'.toNat

/-- Value of the longest leading run of decimal digits, `0` when there is
none — the value `parseInt(s, 10)` yields once consumed by a bitwise
operator (which sends `NaN` to `0`). -/
def parseIntJS : Str → Nat :=
  go 0
where
  go (acc : Nat) : Str → Nat
    | [] => acc
    | c :: rest => if c.isDigit then go (acc * 10 + digitVal c) rest else acc

/-- `s.split(sep)` for a one-character separator, with JS semantics:
empty pieces are kept, and the empty string splits to `[""]`. -/
def splitOn (sep : Char) : Str → List Str
  | [] => [[]]
  | c :: rest =>
    if c = sep then [] :: splitOn sep rest
    else match splitOn sep rest with
      | [] => [[c]]
      | piece :: pieces => (c :: piece) :: pieces

/-- The decimal digits of `n`, most significant first, computed with a fuel
argument to keep the recursion structural; `15` digits cover every number
below `10 ^ 15`, far beyond the 32-bit values the source renders. -/
def natDigits : Nat → Nat → List Nat
  | 0, _ => []
  | fuel + 1, n => if n < 10 then [n] else natDigits fuel (n / 10) ++ [n % 10]

/-- Decimal rendering of a number, as produced by JS string templates. -/
def natToStr (n : Nat) : Str :=
  (natDigits 15 n).map fun d => Char.ofNat ('0'.toNat + d)

/-- `ipToInt` from `src/lib/subnet.ts`: fold the dot-separated pieces with
`(acc << 8) | parseInt(octet, 10)`, then `>>> 0`. -/
def ipToInt (ip : Str) : Nat :=
  (splitOn '.' ip).foldl (fun acc octet => ((acc * 256) % 2 ^ 32) ||| (parseIntJS octet % 2 ^ 32)) 0

/-- `intToIp` from `src/lib/subnet.ts`: the four bytes of `n >>> 0`,
rendered in decimal and joined with dots. -/
def intToIp (n : Nat) : Str :=
  let m := n % 2 ^ 32
  natToStr (m / 2 ^ 24 % 256) ++ ['.'] ++ natToStr (m / 2 ^ 16 % 256) ++ ['.'] ++
    natToStr (m / 2 ^ 8 % 256) ++ ['.'] ++ natToStr (m % 256)

/-- One octet group of the CIDR regex `\d{1,3}`: one to three digits. -/
def isOctetStr (s : Str) : Bool :=
  decide (1 ≤ s.length) && decide (s.length ≤ 3) && s.all Char.isDigit

/-- The prefix-length group of the CIDR regex `\d{1,2}`: one or two digits. -/
def isPrefixStr (s : Str) : Bool :=
  decide (1 ≤ s.length) && decide (s.length ≤ 2) && s.all Char.isDigit

/-- `parseCidr` from `src/lib/subnet.ts`.  The source matches the anchored
regex `^(\d{1,3}(?:\.\d{1,3}){3})\/(\d{1,2})$` — an address of exactly four
one-to-three-digit octets, a slash, and a one-or-two-digit prefix length — then
checks `prefix ≤ 32` and every octet value `≤ 255`. -/
def parseCidr (cidr : Str) : Option (Str × Nat) :=
  match splitOn '/' cidr with
  | [ipPart, prefixPart] =>
    match splitOn '.' ipPart with
    | [o1, o2, o3, o4] =>
      if isOctetStr o1 && isOctetStr o2 && isOctetStr o3 && isOctetStr o4 &&
          isPrefixStr prefixPart then
        let pfx := parseIntJS prefixPart
        if pfx > 32 then none
        else if [o1, o2, o3, o4].any (fun o => parseIntJS o > 255) then none
        else some (ipPart, pfx)
      else none
    | _ => none
  | _ => none

/-- The netmask `prefix == 0 ? 0 : (0xffffffff << (32 - prefix)) >>> 0`.
The `prefix` field of the source is named `pfx` here (`prefix` is a Lean keyword).
For `1 ≤ p ≤ 32` the JS expression evaluates to `2 ^ 32 - 2 ^ (32 - p)`. -/
def maskOf (pfx : Nat) : Nat :=
  if pfx = 0 then 0 else 2 ^ 32 - 2 ^ (32 - pfx)

/-- `normalizeCidr` from `src/lib/subnet.ts`. -/
def normalizeCidr (cidr : Str) : Option Str :=
  match parseCidr cidr with
  | none => none
  | some (ip, pfx) =>
    let mask := maskOf pfx
    let networkInt := ipToInt ip &&& mask
    some (intToIp networkInt ++ ['/'] ++ natToStr pfx)

/-- The `SubnetInfo` record of `src/lib/subnet.ts`. -/
structure SubnetInfo where
  cidr : Str
  networkAddress : Str
  broadcastAddress : Str
  firstHost : Str
  lastHost : Str
  totalHosts : Nat
  usableHosts : Nat
  pfx : Nat
  networkInt : Nat
  broadcastInt : Nat
deriving DecidableEq, Repr

/-- `getSubnetInfo` from `src/lib/subnet.ts`.  `~mask >>> 0` is
`2 ^ 32 - 1 - mask`; `Math.max(0, totalHosts - 2)` is `Nat` subtraction;
`intToIp(broadcastInt - 1)` is only reached with `pfx ≤ 30` (the source field `prefix` is named `pfx` here), where
`broadcastInt ≥ 3`, so `Nat` subtraction is exact there too. -/
def getSubnetInfo (cidr : Str) : Option SubnetInfo :=
  match parseCidr cidr with
  | none => none
  | some (ip, pfx) =>
    let mask := maskOf pfx
    let networkInt := ipToInt ip &&& mask
    let broadcastInt := networkInt ||| (2 ^ 32 - 1 - mask)
    let totalHosts := 2 ^ (32 - pfx)
    let usableHosts := if pfx ≥ 31 then totalHosts else totalHosts - 2
    some
      { cidr := intToIp networkInt ++ ['/'] ++ natToStr pfx
        networkAddress := intToIp networkInt
        broadcastAddress := intToIp broadcastInt
        firstHost := if pfx ≥ 31 then intToIp networkInt else intToIp (networkInt + 1)
        lastHost := if pfx ≥ 31 then intToIp broadcastInt else intToIp (broadcastInt - 1)
        totalHosts := totalHosts
        usableHosts := usableHosts
        pfx := pfx
        networkInt := networkInt
        broadcastInt := broadcastInt }

/-- `splitCidr` from `src/lib/subnet.ts`. -/
def splitCidr (parentCidr : Str) (childPfx : Nat) : List Str :=
  match getSubnetInfo parentCidr with
  | none => []
  | some info =>
    if childPfx ≤ info.pfx ∨ childPfx > 32 then []
    else
      let count := 2 ^ (childPfx - info.pfx)
      let blockSize := 2 ^ (32 - childPfx)
      (List.range count).map fun i =>
        intToIp ((info.networkInt + i * blockSize) % 2 ^ 32) ++ ['/'] ++ natToStr childPfx

/-- `cidrContains` from `src/lib/subnet.ts` — the containment oracle. -/
def cidrContains (parentCidr childCidr : Str) : Bool :=
  match getSubnetInfo parentCidr, getSubnetInfo childCidr with
  | some parent, some child =>
    decide (child.networkInt ≥ parent.networkInt) &&
      decide (child.broadcastInt ≤ parent.broadcastInt)
  | _, _ => false

/-- `cidrsOverlap` from `src/lib/subnet.ts` — the overlap oracle. -/
def cidrsOverlap (a b : Str) : Bool :=
  match getSubnetInfo a, getSubnetInfo b with
  | some ai, some bi =>
    decide (ai.networkInt ≤ bi.broadcastInt) && decide (bi.networkInt ≤ ai.broadcastInt)
  | _, _ => false

/-- The `SubnetEntry` record of `src/unnamed/part_000` (shared type
definitions): a named allocation with its CIDR and the CIDR it was carved
from. -/
structure SubnetEntry where
  id : Str
  cidr : Str
  name : Str
  colorLabelId : Option Str
  parentCidr : Str
  notes : Option Str
deriving DecidableEq, Repr

/-- The two segment kinds of the `Segment` interface in
`src/components/SubnetCanvas.tsx` (`"allocated" | "free"`). -/
inductive SegType where
  | allocated
  | free
deriving DecidableEq, Repr

/-- The `Segment` interface of `src/components/SubnetCanvas.tsx`.  The
source field `end` is named `endI` here (`end` is a Lean keyword). -/
structure Segment where
  type : SegType
  cidr : Str
  start : Nat
  endI : Nat
  size : Nat
  subnet : Option SubnetEntry
deriving DecidableEq, Repr

/-- `directChildren` from `src/components/SubnetCanvas.tsx`: keeps the
entries whose stored `parentCidr` is the scope's cidr text and whose block
lies inside the scope. -/
def directChildrenCanvas (rootCidr : Str) (allSubnets : List SubnetEntry) :
    List SubnetEntry :=
  match getSubnetInfo rootCidr with
  | none => []
  | some root =>
    allSubnets.filter fun s =>
      if s.parentCidr ≠ rootCidr then false
      else
        match getSubnetInfo s.cidr with
        | none => false
        | some si =>
          decide (si.networkInt ≥ root.networkInt) &&
            decide (si.broadcastInt ≤ root.broadcastInt)

/-- A free `Segment`, with its synthetic `free-start-end` key, exactly as
pushed by `buildSegments`. -/
def freeSeg (start endI : Nat) (size : Nat) : Segment :=
  { type := .free
    cidr := "free-".toList ++ natToStr start ++ ['-'] ++ natToStr endI
    start := start
    endI := endI
    size := size
    subnet := none }

/-- The cursor walk of `buildSegments` (`src/components/SubnetCanvas.tsx`):
for each entry in sorted order, emit a free segment when its network
address is past the cursor, then the allocated segment, advancing the
cursor past the entry's broadcast; finally a trailing free segment when the
cursor has not passed the scope's broadcast. -/
def buildSegmentsWalk (root : SubnetInfo) :
    Nat → List (SubnetEntry × SubnetInfo) → List Segment
  | cursor, [] =>
    if cursor ≤ root.broadcastInt then
      [freeSeg cursor root.broadcastInt (root.broadcastInt - cursor + 1)]
    else []
  | cursor, (s, info) :: rest =>
    (if info.networkInt > cursor then
      [freeSeg cursor (info.networkInt - 1) (info.networkInt - cursor)]
    else []) ++
    ({ type := .allocated
       cidr := s.cidr
       start := info.networkInt
       endI := info.broadcastInt
       size := info.totalHosts
       subnet := some s } : Segment) ::
    buildSegmentsWalk root (info.broadcastInt + 1) rest

/-- Insert `x` after every element with a strictly smaller key and before
the rest, keeping elements with equal keys in their prior order. -/
def insertByKey (key : α → Nat) (x : α) : List α → List α
  | [] => [x]
  | y :: ys => if key y < key x then y :: insertByKey key x ys else x :: y :: ys

/-- Stable sort ascending by `key`: the result of
`array.sort((a, b) => key(a) - key(b))` in JS, whose `Array.prototype.sort`
is stable — equal-key elements keep their input order, which this insertion
sort reproduces exactly. -/
def sortByKey (key : α → Nat) : List α → List α
  | [] => []
  | x :: xs => insertByKey key x (sortByKey key xs)

/-- `buildSegments` from `src/components/SubnetCanvas.tsx`: pair each entry
with its `SubnetInfo`, drop the unparsable ones, sort ascending by network
address, then run the cursor walk. -/
def buildSegments (rootCidr : Str) (subnets : List SubnetEntry) : List Segment :=
  match getSubnetInfo rootCidr with
  | none => []
  | some root =>
    let sorted :=
      sortByKey (fun x => x.2.networkInt)
        (subnets.filterMap fun s => (getSubnetInfo s.cidr).map fun i => (s, i))
    buildSegmentsWalk root root.networkInt sorted

/-- `suggestedPrefixes` from `src/components/SubnetCanvas.tsx`: scan
prefix lengths from `parentPfx + 1` up to `30`, keep those whose block size
fits the gap, and `break` once eight are collected.  The loop body is the
named fold step `suggestedStep`; its state carries the collected list and
the broken-out flag. -/
def suggestedStep (gapSize : Nat) (st : List Nat × Bool) (p : Nat) : List Nat × Bool :=
  if st.2 then st
  else
    let r := if 2 ^ (32 - p) ≤ gapSize then st.1 ++ [p] else st.1
    (r, decide (r.length ≥ 8))

def suggestedPrefixes (gapSize parentPfx : Nat) : List Nat :=
  ((List.range' (parentPfx + 1) (30 - parentPfx)).foldl (suggestedStep gapSize)
    (([], false) : List Nat × Bool)).1

/-- `firstAlignedCidr` from `src/components/SubnetCanvas.tsx`.
`Math.ceil(gapStart / blockSize) * blockSize` is exact ceiling division by
a power of two (a power-of-two division of a value below `2 ^ 32` is exact
in JS floats), written here as `(gapStart + blockSize - 1) / blockSize *
blockSize` over `Nat`.  Faithful for `pfx ≤ 32`, where `2 ^ (32 - pfx)` is
the source's integral `Math.pow(2, 32 - prefix)`. -/
def firstAlignedCidr (gapStart gapEnd pfx : Nat) : Option Str :=
  let blockSize := 2 ^ (32 - pfx)
  let aligned := (gapStart + blockSize - 1) / blockSize * blockSize
  if aligned + blockSize - 1 > gapEnd then none
  else some (intToIp (aligned % 2 ^ 32) ++ ['/'] ++ natToStr pfx)

/-- The `directChildren` filter computed inside the `SubnetBlock` component
(`src/components/SubnetBlock.tsx`): an entry is kept when its block parses,
is strictly inside the scope (greater prefix length, range contained) and
no other entry (with different cidr text) has a block of prefix length
strictly between the two that contains it.  When the scope itself does not
parse the component renders nothing, so the list is empty. -/
def directChildrenBlock (cidr : Str) (allSubnets : List SubnetEntry) :
    List SubnetEntry :=
  match getSubnetInfo cidr with
  | none => []
  | some info =>
    allSubnets.filter fun s =>
      match getSubnetInfo s.cidr with
      | none => false
      | some childInfo =>
        if childInfo.pfx ≤ info.pfx then false
        else if childInfo.networkInt < info.networkInt ∨
            childInfo.broadcastInt > info.broadcastInt then false
        else
          !(allSubnets.any fun other =>
            if other.cidr = s.cidr then false
            else
              match getSubnetInfo other.cidr with
              | none => false
              | some otherInfo =>
                decide (otherInfo.pfx > info.pfx) &&
                  decide (otherInfo.pfx < childInfo.pfx) &&
                  decide (childInfo.networkInt ≥ otherInfo.networkInt) &&
                  decide (childInfo.broadcastInt ≤ otherInfo.broadcastInt))

/-- `deleteSubnet` from `src/unnamed/part_003`: find the target by id and
drop it together with every entry whose block lies inside the target's
block; entries that do not parse (or a target that does not parse) leave
the non-target entries untouched. -/
def deleteSubnet (subnets : List SubnetEntry) (id : Str) : List SubnetEntry :=
  match subnets.find? (fun s => s.id = id) with
  | none => subnets
  | some target =>
    let targetInfo := getSubnetInfo target.cidr
    subnets.filter fun s =>
      if s.id = id then false
      else
        match getSubnetInfo s.cidr, targetInfo with
        | some si, some ti =>
          !(decide (si.networkInt ≥ ti.networkInt) &&
            decide (si.broadcastInt ≤ ti.broadcastInt))
        | _, _ => true

/-- `handleDeleteSubnet` from `src/unnamed/part_001`: collect the target
(by id) and every entry whose block lies inside the target's block, then
keep the entries whose id is not among the collected ones. -/
def handleDeleteSubnet (subnets : List SubnetEntry) (id : Str) :
    List SubnetEntry :=
  match subnets.find? (fun s => s.id = id) with
  | none => subnets
  | some subnet =>
    let subnetInfo := getSubnetInfo subnet.cidr
    let toDelete := subnets.filter fun s =>
      decide (s.id = id) ||
        match getSubnetInfo s.cidr, subnetInfo with
        | some si, some ti =>
          decide (si.networkInt ≥ ti.networkInt) &&
            decide (si.broadcastInt ≤ ti.broadcastInt)
        | _, _ => false
    subnets.filter fun s => !(toDelete.any fun d => d.id = s.id)

/-! ## Arithmetic helpers -/

/-- The digit character for a digit value. -/
def toDigitChar (d : Nat) : Char := Char.ofNat ('0'.toNat + d)

/-- The number denoted by a most-significant-first digit list. -/
def digitsVal (ds : List Nat) : Nat := ds.foldl (fun a d => a * 10 + d) 0

/-- Join pieces with a separator — the inverse of `splitOn`. -/
def joinSep (c : Char) : List Str → Str
  | [] => []
  | [p] => p
  | p :: ps => p ++ c :: joinSep c ps

/-- The claim's notion of a valid dotted-decimal address text: four
dot-separated all-digit octets, each with value at most 255 (leading zeros
permitted by this reading). -/
def isDottedQuad (s : Str) : Bool :=
  match splitOn '.' s with
  | [o1, o2, o3, o4] =>
    [o1, o2, o3, o4].all fun o =>
      decide (1 ≤ o.length) && o.all Char.isDigit && decide (parseIntJS o ≤ 255)
  | _ => false

/-- Canonical dotted-decimal address text: additionally no octet has a
leading zero. -/
def isCanonicalQuad (s : Str) : Bool :=
  match splitOn '.' s with
  | [o1, o2, o3, o4] =>
    [o1, o2, o3, o4].all fun o =>
      decide (1 ≤ o.length) && o.all Char.isDigit && decide (parseIntJS o ≤ 255) &&
        (decide (o.length = 1) || decide (o.head? ≠ some '0'))
  | _ => false

/-- A segment list tiles the closed range `[lo, hi]`: each segment starts
where the previous one ended plus one, the first starts at `lo`, the last
ends at `hi` (an empty list tiles the empty range `lo = hi + 1`). -/
def IsChain : List Segment → Nat → Nat → Prop
  | [], lo, hi => lo = hi + 1
  | seg :: rest, lo, hi =>
    seg.start = lo ∧ seg.start ≤ seg.endI ∧ seg.endI ≤ hi ∧ IsChain rest (seg.endI + 1) hi

/-- A value with only high bits or-ed with one with only low bits adds. -/
theorem lor_high_low {q k r : Nat} (h : r < 2 ^ k) :
    (q * 2 ^ k) ||| r = q * 2 ^ k + r := by
  apply Nat.eq_of_testBit_eq
  intro i
  rw [Nat.testBit_lor]
  rcases lt_or_ge i k with hik | hik
  · have h1 : (q * 2 ^ k).testBit i = false := by
      rw [← Nat.shiftLeft_eq, Nat.testBit_shiftLeft]
      simp [Nat.not_le.mpr hik]
    have h2 : (q * 2 ^ k + r).testBit i = r.testBit i := by
      rw [Nat.testBit_to_div_mod, Nat.testBit_to_div_mod]
      have hk : 2 ^ k = 2 ^ (k - i) * 2 ^ i := by
        rw [← pow_add]; congr 1; omega
      have hpos : 0 < 2 ^ i := Nat.pos_pow_of_pos i (by norm_num)
      rw [hk, ← Nat.mul_assoc, Nat.add_comm, Nat.add_mul_div_right _ _ hpos]
      have hsplit : q * 2 ^ (k - i) = q * 2 ^ (k - i - 1) * 2 := by
        rw [Nat.mul_assoc, ← pow_succ]; congr 2; omega
      rw [hsplit, Nat.add_mul_mod_self_right]
    rw [h1, h2]; simp
  · have h1 : r.testBit i = false :=
      Nat.testBit_lt_two_pow (lt_of_lt_of_le h (Nat.pow_le_pow_right (by norm_num) hik))
    have h2 : (q * 2 ^ k).testBit i = q.testBit (i - k) := by
      rw [← Nat.shiftLeft_eq, Nat.testBit_shiftLeft]
      simp [hik]
    have h3 : (q * 2 ^ k + r).testBit i = q.testBit (i - k) := by
      rw [Nat.testBit_to_div_mod, Nat.testBit_to_div_mod]
      have hi : 2 ^ i = 2 ^ k * 2 ^ (i - k) := by
        rw [← pow_add]; congr 1; omega
      have hpos : 0 < 2 ^ k := Nat.pos_pow_of_pos k (by norm_num)
      rw [hi, ← Nat.div_div_eq_div_mul, Nat.add_comm, Nat.add_mul_div_right _ _ hpos,
        Nat.div_eq_of_lt h, Nat.zero_add]
    rw [h1, h2, h3]; simp

/-- And-ing with the high mask `2 ^ n - 2 ^ k` clears the low `k` bits. -/
theorem land_high_mask {a k n : Nat} (hk : k ≤ n) (ha : a < 2 ^ n) :
    a &&& (2 ^ n - 2 ^ k) = a / 2 ^ k * 2 ^ k := by
  apply Nat.eq_of_testBit_eq
  intro i
  rw [Nat.testBit_land]
  have hmask : 2 ^ n - 2 ^ k = (2 ^ (n - k) - 1) * 2 ^ k := by
    rw [Nat.sub_mul, ← pow_add, Nat.one_mul]; congr 2; omega
  have hright : (a / 2 ^ k * 2 ^ k).testBit i =
      (decide (i ≥ k) && a.testBit i) := by
    rw [← Nat.shiftLeft_eq, ← Nat.shiftRight_eq_div_pow, Nat.testBit_shiftLeft,
      Nat.testBit_shiftRight]
    rcases le_or_lt k i with hki | hki
    · simp [hki, Nat.add_sub_cancel' hki]
    · simp [Nat.not_le.mpr hki]
  have hmaskbit : (2 ^ n - 2 ^ k).testBit i = (decide (i ≥ k) && decide (i < n)) := by
    rw [hmask, ← Nat.shiftLeft_eq, Nat.testBit_shiftLeft, Nat.testBit_two_pow_sub_one]
    rcases le_or_lt k i with hki | hki
    · simp [hki]
      constructor
      · intro h1; omega
      · intro h1; omega
    · simp [Nat.not_le.mpr hki]
  rw [hmaskbit, hright]
  rcases le_or_lt k i with hki | hki
  · simp [hki]
    rcases lt_or_ge i n with hin | hin
    · simp [hin]
    · simp [Nat.not_lt.mpr hin]
      exact Nat.testBit_lt_two_pow (lt_of_lt_of_le ha (Nat.pow_le_pow_right (by norm_num) hin))
  · simp [Nat.not_le.mpr hki]

/-- For a prefix length within `[0, 32]` the netmask is
`2 ^ 32 - 2 ^ (32 - p)` in both branches of the source's conditional. -/
theorem maskOf_eq {p : Nat} (hp : p ≤ 32) : maskOf p = 2 ^ 32 - 2 ^ (32 - p) := by
  unfold maskOf
  by_cases h : p = 0
  · subst h; norm_num
  · simp [h]

/-! ## Decimal digit helpers -/

theorem natToStr_eq_map (n : Nat) : natToStr n = (natDigits 15 n).map toDigitChar := rfl

theorem toDigitChar_isDigit {d : Nat} (h : d < 10) : (toDigitChar d).isDigit = true := by
  interval_cases d <;> decide

theorem digitVal_toDigitChar {d : Nat} (h : d < 10) : digitVal (toDigitChar d) = d := by
  interval_cases d <;> decide

theorem isDigit_toNat_bounds {c : Char} (h : c.isDigit = true) :
    48 ≤ c.toNat ∧ c.toNat ≤ 57 := by
  simp [Char.isDigit] at h
  obtain ⟨h1, h2⟩ := h
  rw [UInt32.le_def] at h1 h2
  exact ⟨h1, h2⟩

theorem toDigitChar_digitVal {c : Char} (h : c.isDigit = true) :
    toDigitChar (digitVal c) = c := by
  obtain ⟨h1, h2⟩ := isDigit_toNat_bounds h
  have h0 : '0'.toNat = 48 := by decide
  simp only [toDigitChar, digitVal, h0]
  have heq : 48 + (c.toNat - 48) = c.toNat := by omega
  rw [heq, Char.ofNat_toNat]

theorem digitVal_lt_ten {c : Char} (h : c.isDigit = true) : digitVal c < 10 := by
  obtain ⟨h1, h2⟩ := isDigit_toNat_bounds h
  have h0 : '0'.toNat = 48 := by decide
  simp only [digitVal, h0]
  omega

theorem natDigits_lt_ten : ∀ fuel n d, d ∈ natDigits fuel n → d < 10 := by
  intro fuel
  induction fuel with
  | zero => intro n d h; simp [natDigits] at h
  | succ fuel ih =>
    intro n d h
    simp only [natDigits] at h
    by_cases hn : n < 10
    · simp [hn] at h; omega
    · simp [hn] at h
      rcases h with h | h
      · exact ih _ _ h
      · omega

theorem natDigits_ne_nil (fuel n : Nat) : natDigits (fuel + 1) n ≠ [] := by
  simp only [natDigits]
  by_cases hn : n < 10 <;> simp [hn]

theorem digitsVal_append (xs ys : List Nat) :
    digitsVal (xs ++ ys) = ys.foldl (fun a d => a * 10 + d) (digitsVal xs) := by
  simp [digitsVal, List.foldl_append]

theorem natDigits_val : ∀ fuel n, n < 10 ^ fuel → digitsVal (natDigits fuel n) = n := by
  intro fuel
  induction fuel with
  | zero => intro n h; interval_cases n; simp [natDigits, digitsVal]
  | succ fuel ih =>
    intro n h
    simp only [natDigits]
    by_cases hn : n < 10
    · simp [hn, digitsVal]
    · simp only [hn, if_false, digitsVal_append]
      have hdiv : n / 10 < 10 ^ fuel := by
        rw [Nat.div_lt_iff_lt_mul (by norm_num)]
        calc n < 10 ^ (fuel + 1) := h
        _ = 10 ^ fuel * 10 := by ring
      rw [List.foldl_cons, List.foldl_nil, ih _ hdiv]
      omega

theorem natDigits_length_le : ∀ fuel n, n < 10 ^ fuel →
    (natDigits fuel n).length ≤ max fuel 1 := by
  intro fuel
  induction fuel with
  | zero => intro n h; interval_cases n; simp [natDigits]
  | succ fuel ih =>
    intro n h
    simp only [natDigits]
    by_cases hn : n < 10
    · simp [hn]
    · simp only [hn, if_false, List.length_append, List.length_cons, List.length_nil]
      have hdiv : n / 10 < 10 ^ fuel := by
        rw [Nat.div_lt_iff_lt_mul (by norm_num)]
        calc n < 10 ^ (fuel + 1) := h
        _ = 10 ^ fuel * 10 := by ring
      have := ih _ hdiv
      have hfuel : fuel ≠ 0 := by
        rintro rfl
        simp at hdiv
        omega
      omega

theorem natDigits_head_ne_zero : ∀ fuel n, n ≠ 0 → n < 10 ^ fuel →
    (natDigits fuel n).head? ≠ some 0 := by
  intro fuel
  induction fuel with
  | zero => intro n h hlt; simp [natDigits]
  | succ fuel ih =>
    intro n h hlt
    simp only [natDigits]
    by_cases hn : n < 10
    · simp [hn]; omega
    · simp only [hn, if_false]
      match hfuel : fuel with
      | 0 => omega
      | f + 1 =>
        rw [List.head?_append_of_ne_nil _ (natDigits_ne_nil f (n / 10))]
        apply ih
        · omega
        · rw [Nat.div_lt_iff_lt_mul (by norm_num)]
          calc n < 10 ^ (f + 1 + 1) := hlt
          _ = 10 ^ (f + 1) * 10 := by ring

theorem parseIntJS_go_digits : ∀ (ds : List Nat) (acc : Nat), (∀ d ∈ ds, d < 10) →
    parseIntJS.go acc (ds.map toDigitChar) = ds.foldl (fun a d => a * 10 + d) acc := by
  intro ds
  induction ds with
  | nil => intro acc h; rfl
  | cons d ds ih =>
    intro acc h
    have hd : d < 10 := h d (by simp)
    simp only [List.map_cons, parseIntJS.go, toDigitChar_isDigit hd, if_true,
      digitVal_toDigitChar hd, List.foldl_cons]
    exact ih _ (fun x hx => h x (by simp [hx]))

theorem parseIntJS_natToStr {n : Nat} (h : n < 10 ^ 15) : parseIntJS (natToStr n) = n := by
  have hd : ∀ d ∈ natDigits 15 n, d < 10 := fun d hd => natDigits_lt_ten 15 n d hd
  rw [natToStr_eq_map, parseIntJS, parseIntJS_go_digits _ _ hd]
  exact natDigits_val 15 n h

theorem digitsVal_foldl_lt : ∀ (ds : List Nat) (acc : Nat), (∀ d ∈ ds, d < 10) →
    ds.foldl (fun a d => a * 10 + d) acc < (acc + 1) * 10 ^ ds.length := by
  intro ds
  induction ds with
  | nil => intro acc h; simp
  | cons d ds ih =>
    intro acc h
    have hd : d < 10 := h d (by simp)
    simp only [List.foldl_cons, List.length_cons]
    calc ds.foldl (fun a d => a * 10 + d) (acc * 10 + d)
        < (acc * 10 + d + 1) * 10 ^ ds.length := ih _ (fun x hx => h x (by simp [hx]))
      _ ≤ (acc + 1) * 10 ^ (ds.length + 1) := by
          rw [pow_succ', ← Nat.mul_assoc]
          exact Nat.mul_le_mul_right _ (by omega)

theorem digitsVal_lt {ds : List Nat} (h : ∀ d ∈ ds, d < 10) :
    digitsVal ds < 10 ^ ds.length := by
  have := digitsVal_foldl_lt ds 0 h
  simpa [digitsVal] using this

theorem digitsVal_foldl_ge : ∀ (ds : List Nat) (acc : Nat),
    acc * 10 ^ ds.length ≤ ds.foldl (fun a d => a * 10 + d) acc := by
  intro ds
  induction ds with
  | nil => intro acc; simp
  | cons d ds ih =>
    intro acc
    simp only [List.foldl_cons, List.length_cons]
    calc acc * 10 ^ (ds.length + 1) = acc * 10 * 10 ^ ds.length := by
          rw [Nat.mul_assoc, ← pow_succ']
      _ ≤ (acc * 10 + d) * 10 ^ ds.length := Nat.mul_le_mul_right _ (by omega)
      _ ≤ ds.foldl (fun a d => a * 10 + d) (acc * 10 + d) := ih _

theorem digitsVal_head_ge {y : Nat} {ys : List Nat} (hy : y ≠ 0) :
    10 ^ ys.length ≤ digitsVal (y :: ys) := by
  have h1 : y * 10 ^ ys.length ≤ digitsVal (y :: ys) := by
    simpa [digitsVal] using digitsVal_foldl_ge ys y
  calc 10 ^ ys.length = 1 * 10 ^ ys.length := by ring
    _ ≤ y * 10 ^ ys.length := Nat.mul_le_mul_right _ (by omega)
    _ ≤ _ := h1

theorem natDigits_digitsVal : ∀ (fuel : Nat) (ds : List Nat), (∀ d ∈ ds, d < 10) →
    ds.length ≤ fuel → ds ≠ [] → (ds.length = 1 ∨ ds.head? ≠ some 0) →
    natDigits fuel (digitsVal ds) = ds := by
  intro fuel ds
  induction ds using List.reverseRecOn generalizing fuel with
  | nil => intro _ _ h _; exact absurd rfl h
  | append_singleton xs d ih =>
    intro hdigits hlen _ hhead
    have hd : d < 10 := hdigits d (by simp)
    match xs with
    | [] =>
      simp only [List.nil_append, digitsVal, List.foldl_cons, List.foldl_nil,
        Nat.zero_mul, Nat.zero_add]
      match fuel, hlen with
      | f + 1, _ => simp [natDigits, hd]
    | y :: ys =>
      have hy : y ≠ 0 := by
        rcases hhead with h1 | h1
        · simp at h1
        · simp only [List.cons_append, List.head?_cons] at h1
          intro h2; exact h1 (by rw [h2])
      have hxs : digitsVal (y :: ys) ≥ 1 := by
        have := @digitsVal_head_ge y ys hy
        have h10 : (1 : Nat) ≤ 10 ^ ys.length := Nat.one_le_pow _ _ (by norm_num)
        omega
      have hval : digitsVal ((y :: ys) ++ [d]) = digitsVal (y :: ys) * 10 + d := by
        rw [digitsVal_append]; rfl
      match fuel with
      | 0 => simp at hlen
      | f + 1 =>
        have hge : ¬ digitsVal ((y :: ys) ++ [d]) < 10 := by omega
        simp only [natDigits, hge, if_false]
        have hdiv : digitsVal ((y :: ys) ++ [d]) / 10 = digitsVal (y :: ys) := by
          rw [hval]; omega
        have hmod : digitsVal ((y :: ys) ++ [d]) % 10 = d := by
          rw [hval]; omega
        rw [hdiv, hmod, ih f (fun x hx => hdigits x (by simp at hx ⊢; tauto))
          (by simp at hlen ⊢; omega) (by simp) (Or.inr (by simp [hy]))]

/-! ## splitOn helpers -/

theorem splitOn_ne_nil (c : Char) : ∀ s, splitOn c s ≠ [] := by
  intro s
  match s with
  | [] => simp [splitOn]
  | x :: rest =>
    simp only [splitOn]
    by_cases hx : x = c
    · simp [hx]
    · simp only [hx, if_false]
      match h : splitOn c rest with
      | [] => simp
      | piece :: pieces => simp

theorem splitOn_of_not_mem {c : Char} : ∀ {s : Str}, c ∉ s → splitOn c s = [s] := by
  intro s
  induction s with
  | nil => intro _; rfl
  | cons x rest ih =>
    intro h
    have hx : ¬ x = c := fun he => h (by simp [he])
    have hrest : c ∉ rest := fun hm => h (by simp [hm])
    simp only [splitOn, hx, if_false, ih hrest]

theorem splitOn_append {c : Char} : ∀ {xs ys : Str}, c ∉ xs →
    splitOn c (xs ++ c :: ys) = xs :: splitOn c ys := by
  intro xs
  induction xs with
  | nil => intro ys _; simp [splitOn]
  | cons x xs ih =>
    intro ys h
    have hx : ¬ x = c := fun he => h (by simp [he])
    have hxs : c ∉ xs := fun hm => h (by simp [hm])
    simp only [List.cons_append, splitOn, hx, if_false]
    rw [List.append_eq, ih hxs]

/-! ## natToStr character facts -/

theorem mem_natToStr_isDigit {n : Nat} {c : Char} (h : c ∈ natToStr n) :
    c.isDigit = true := by
  rw [natToStr_eq_map] at h
  obtain ⟨d, hd, rfl⟩ := List.mem_map.mp h
  exact toDigitChar_isDigit (natDigits_lt_ten 15 n d hd)

theorem not_mem_natToStr {n : Nat} {c : Char} (h : c.isDigit = false) :
    c ∉ natToStr n := by
  intro hc
  rw [mem_natToStr_isDigit hc] at h
  exact Bool.noConfusion h

theorem natToStr_ne_nil (n : Nat) : natToStr n ≠ [] := by
  rw [natToStr_eq_map]
  intro h
  exact natDigits_ne_nil 14 n (List.map_eq_nil_iff.mp h)

theorem natDigits_length_le_of_lt : ∀ (fuel k n : Nat), 1 ≤ k → k ≤ fuel →
    n < 10 ^ k → (natDigits fuel n).length ≤ k := by
  intro fuel
  induction fuel with
  | zero => intro k n h1 h2 _; omega
  | succ fuel ih =>
    intro k n h1 h2 h3
    simp only [natDigits]
    by_cases hn : n < 10
    · simp [hn]; omega
    · simp only [hn, if_false, List.length_append, List.length_cons, List.length_nil]
      have hk2 : 2 ≤ k := by
        by_contra hc
        have : k = 1 := by omega
        subst this
        simp at h3
        omega
      have hdiv : n / 10 < 10 ^ (k - 1) := by
        rw [Nat.div_lt_iff_lt_mul (by norm_num)]
        calc n < 10 ^ k := h3
          _ = 10 ^ (k - 1) * 10 := by
              rw [← pow_succ]; congr 1; omega
      have := ih (k - 1) (n / 10) (by omega) (by omega) hdiv
      omega

theorem natToStr_length_le {n k : Nat} (h1 : 1 ≤ k) (h2 : k ≤ 15) (h3 : n < 10 ^ k) :
    (natToStr n).length ≤ k := by
  rw [natToStr_eq_map, List.length_map]
  exact natDigits_length_le_of_lt 15 k n h1 h2 h3

theorem natToStr_length_pos (n : Nat) : 1 ≤ (natToStr n).length := by
  have := natToStr_ne_nil n
  cases h : natToStr n with
  | nil => exact absurd h this
  | cons x xs => simp

/-! ## Codec round trip -/

theorem ipToInt_step {x y : Nat} (hx : x < 2 ^ 24) (hy : y < 256) :
    ((x * 256) % 2 ^ 32) ||| (y % 2 ^ 32) = x * 256 + y := by
  have h1 : x * 256 < 2 ^ 32 := by omega
  have h2 : y < 2 ^ 32 := by omega
  rw [Nat.mod_eq_of_lt h1, Nat.mod_eq_of_lt h2]
  have h256 : (256 : Nat) = 2 ^ 8 := by norm_num
  rw [h256]
  exact lor_high_low (by omega)

theorem ipToInt_four {a b c d : Nat} (ha : a < 256) (hb : b < 256) (hc : c < 256)
    (hd : d < 256) :
    ipToInt (natToStr a ++ '.' :: (natToStr b ++ '.' :: (natToStr c ++ '.' :: natToStr d))) =
      ((a * 256 + b) * 256 + c) * 256 + d := by
  have hdot : ('.').isDigit = false := by decide
  have h15 : ∀ v : Nat, v < 256 → v < 10 ^ 15 := by intro v hv; omega
  unfold ipToInt
  rw [splitOn_append (not_mem_natToStr hdot), splitOn_append (not_mem_natToStr hdot),
    splitOn_append (not_mem_natToStr hdot), splitOn_of_not_mem (not_mem_natToStr hdot)]
  simp only [List.foldl_cons, List.foldl_nil]
  rw [parseIntJS_natToStr (h15 a ha), parseIntJS_natToStr (h15 b hb),
    parseIntJS_natToStr (h15 c hc), parseIntJS_natToStr (h15 d hd)]
  have s1 : ((0 * 256) % 2 ^ 32) ||| (a % 2 ^ 32) = a := by
    rw [Nat.zero_mul, Nat.zero_mod, Nat.zero_or, Nat.mod_eq_of_lt (by omega : a < 2 ^ 32)]
  rw [s1, ipToInt_step (show a < 2 ^ 24 by omega) hb,
    ipToInt_step (show a * 256 + b < 2 ^ 24 by omega) hc,
    ipToInt_step (show (a * 256 + b) * 256 + c < 2 ^ 24 by omega) hd]

theorem ipToInt_intToIp (n : Nat) : ipToInt (intToIp n) = n % 2 ^ 32 := by
  unfold intToIp
  have hassoc :
      natToStr (n % 2 ^ 32 / 2 ^ 24 % 256) ++ ['.'] ++ natToStr (n % 2 ^ 32 / 2 ^ 16 % 256) ++
          ['.'] ++ natToStr (n % 2 ^ 32 / 2 ^ 8 % 256) ++ ['.'] ++ natToStr (n % 2 ^ 32 % 256) =
        natToStr (n % 2 ^ 32 / 2 ^ 24 % 256) ++ '.' ::
          (natToStr (n % 2 ^ 32 / 2 ^ 16 % 256) ++ '.' ::
            (natToStr (n % 2 ^ 32 / 2 ^ 8 % 256) ++ '.' :: natToStr (n % 2 ^ 32 % 256))) := by
    simp [List.append_assoc]
  rw [hassoc, ipToInt_four (Nat.mod_lt _ (by norm_num)) (Nat.mod_lt _ (by norm_num))
    (Nat.mod_lt _ (by norm_num)) (Nat.mod_lt _ (by norm_num))]
  omega

/-! ## Structure of parsed subnet info -/

theorem ipToInt_lt (ip : Str) : ipToInt ip < 2 ^ 32 := by
  unfold ipToInt
  generalize splitOn '.' ip = pieces
  have : ∀ (l : List Str) (acc : Nat), acc < 2 ^ 32 →
      l.foldl (fun acc octet => ((acc * 256) % 2 ^ 32) ||| (parseIntJS octet % 2 ^ 32)) acc <
        2 ^ 32 := by
    intro l
    induction l with
    | nil => intro acc h; simpa using h
    | cons x xs ih =>
      intro acc h
      exact ih _ (Nat.or_lt_two_pow (Nat.mod_lt _ (by norm_num)) (Nat.mod_lt _ (by norm_num)))
  exact this pieces 0 (by norm_num)

theorem parseCidr_pfx_le {s ip : Str} {p : Nat} (h : parseCidr s = some (ip, p)) :
    p ≤ 32 := by
  simp only [parseCidr] at h
  split at h
  · split at h
    · split at h
      · split at h
        · simp at h
        · split at h
          · simp at h
          · rename_i hgt _
            obtain ⟨_, rfl⟩ := Prod.mk.injEq .. ▸ Option.some.injEq _ _ ▸ h
            omega
      · simp at h
    · simp at h
  · simp at h

/-- Everything the claims need about a successfully parsed `SubnetInfo`:
prefix length within `[0, 32]`, a 32-bit network address aligned to the
block size, broadcast at the end of the block, the host-count field, and
the normalized cidr text. -/
theorem getSubnetInfo_props {s : Str} {info : SubnetInfo}
    (h : getSubnetInfo s = some info) :
    info.pfx ≤ 32 ∧ info.networkInt < 2 ^ 32 ∧
      info.networkInt % 2 ^ (32 - info.pfx) = 0 ∧
      info.broadcastInt = info.networkInt + (2 ^ (32 - info.pfx) - 1) ∧
      info.totalHosts = 2 ^ (32 - info.pfx) ∧
      info.cidr = intToIp info.networkInt ++ ['/'] ++ natToStr info.pfx := by
  unfold getSubnetInfo at h
  match hp : parseCidr s with
  | none => rw [hp] at h; simp at h
  | some (ip, p) =>
    rw [hp] at h
    simp only [Option.some.injEq] at h
    obtain rfl := h.symm
    have hple : p ≤ 32 := parseCidr_pfx_le hp
    have hk : 2 ^ (32 - p) ≤ 2 ^ 32 := Nat.pow_le_pow_right (by norm_num) (by omega)
    have hkpos : 0 < 2 ^ (32 - p) := Nat.pos_pow_of_pos _ (by norm_num)
    have hmask : maskOf p = 2 ^ 32 - 2 ^ (32 - p) := maskOf_eq hple
    have hland : ipToInt ip &&& maskOf p =
        ipToInt ip / 2 ^ (32 - p) * 2 ^ (32 - p) := by
      rw [hmask]
      exact land_high_mask (by omega) (ipToInt_lt ip)
    have hcompl : 2 ^ 32 - 1 - maskOf p = 2 ^ (32 - p) - 1 := by
      rw [hmask]; omega
    have hnet_lt : ipToInt ip &&& maskOf p < 2 ^ 32 := by
      rw [hland]
      calc ipToInt ip / 2 ^ (32 - p) * 2 ^ (32 - p) ≤ ipToInt ip :=
            Nat.div_mul_le_self _ _
        _ < 2 ^ 32 := ipToInt_lt ip
    have halign : (ipToInt ip &&& maskOf p) % 2 ^ (32 - p) = 0 := by
      rw [hland]
      exact Nat.mul_mod_left _ _
    have hlor : (ipToInt ip &&& maskOf p) ||| (2 ^ 32 - 1 - maskOf p) =
        (ipToInt ip &&& maskOf p) + (2 ^ (32 - p) - 1) := by
      rw [hcompl]
      conv_lhs => rw [hland]
      rw [lor_high_low (by omega)]
      rw [← hland]
    refine ⟨hple, hnet_lt, halign, ?_, rfl, rfl⟩
    simpa using hlor

/-! ## Emitted cidr strings parse back -/

theorem mem_intToIp {n : Nat} {c : Char} (h : c ∈ intToIp n) :
    c.isDigit = true ∨ c = '.' := by
  have h' : c ∈ natToStr (n % 2 ^ 32 / 2 ^ 24 % 256) ∨ c = '.' ∨
      c ∈ natToStr (n % 2 ^ 32 / 2 ^ 16 % 256) ∨
      c ∈ natToStr (n % 2 ^ 32 / 2 ^ 8 % 256) ∨ c ∈ natToStr (n % 2 ^ 32 % 256) := by
    simpa [intToIp, List.mem_append, or_assoc, or_comm, or_left_comm] using h
  rcases h' with h' | h' | h' | h' | h'
  · exact Or.inl (mem_natToStr_isDigit h')
  · exact Or.inr h'
  · exact Or.inl (mem_natToStr_isDigit h')
  · exact Or.inl (mem_natToStr_isDigit h')
  · exact Or.inl (mem_natToStr_isDigit h')

theorem slash_not_mem_intToIp (n : Nat) : '/' ∉ intToIp n := by
  intro h
  rcases mem_intToIp h with h' | h'
  · exact absurd h' (by decide)
  · exact absurd h' (by decide)

theorem splitOn_intToIp (n : Nat) :
    splitOn '.' (intToIp n) =
      [natToStr (n % 2 ^ 32 / 2 ^ 24 % 256), natToStr (n % 2 ^ 32 / 2 ^ 16 % 256),
        natToStr (n % 2 ^ 32 / 2 ^ 8 % 256), natToStr (n % 2 ^ 32 % 256)] := by
  have hdot : ∀ m : Nat, '.' ∉ natToStr m := fun m => not_mem_natToStr (by decide)
  unfold intToIp
  rw [show ∀ s1 s2 s3 s4 : Str, s1 ++ ['.'] ++ s2 ++ ['.'] ++ s3 ++ ['.'] ++ s4 =
      s1 ++ '.' :: (s2 ++ '.' :: (s3 ++ '.' :: s4)) by intro s1 s2 s3 s4; simp]
  rw [splitOn_append (hdot _), splitOn_append (hdot _), splitOn_append (hdot _),
    splitOn_of_not_mem (hdot _)]

theorem isOctetStr_natToStr {v : Nat} (hv : v < 256) : isOctetStr (natToStr v) = true := by
  unfold isOctetStr
  simp only [Bool.and_eq_true, decide_eq_true_eq]
  refine ⟨⟨natToStr_length_pos v, natToStr_length_le (by norm_num) (by norm_num)
    (by omega : v < 10 ^ 3)⟩, ?_⟩
  rw [List.all_eq_true]
  intro c hc
  exact mem_natToStr_isDigit hc

theorem isPrefixStr_natToStr {p : Nat} (hp : p ≤ 32) : isPrefixStr (natToStr p) = true := by
  unfold isPrefixStr
  simp only [Bool.and_eq_true, decide_eq_true_eq]
  refine ⟨⟨natToStr_length_pos p, natToStr_length_le (by norm_num) (by norm_num)
    (by omega : p < 10 ^ 2)⟩, ?_⟩
  rw [List.all_eq_true]
  intro c hc
  exact mem_natToStr_isDigit hc

theorem parseCidr_emit {n : Nat} {p : Nat} (hp : p ≤ 32) :
    parseCidr (intToIp n ++ ['/'] ++ natToStr p) = some (intToIp n, p) := by
  have hsl : '/' ∉ intToIp n := slash_not_mem_intToIp n
  have hslp : '/' ∉ natToStr p := not_mem_natToStr (by decide)
  have hoct : ∀ m : Nat, m % 256 < 256 := fun m => Nat.mod_lt _ (by norm_num)
  have hval : ∀ m : Nat, m % 256 < 256 → parseIntJS (natToStr (m % 256)) = m % 256 :=
    fun m hm => parseIntJS_natToStr (by omega)
  have hsplit1 : splitOn '/' (intToIp n ++ ['/'] ++ natToStr p) =
      [intToIp n, natToStr p] := by
    rw [show intToIp n ++ ['/'] ++ natToStr p = intToIp n ++ '/' :: natToStr p by simp]
    rw [splitOn_append hsl, splitOn_of_not_mem hslp]
  have hgt : ¬ p > 32 := by omega
  simp only [parseCidr, hsplit1, splitOn_intToIp n, isOctetStr_natToStr (hoct _),
    isPrefixStr_natToStr hp, Bool.and_self, if_true,
    parseIntJS_natToStr (by omega : p < 10 ^ 15), hgt, if_false]
  have hone : ∀ m : Nat, decide (parseIntJS (natToStr (m % 256)) > 255) = false := by
    intro m
    rw [hval m (hoct m)]
    simp only [decide_eq_false_iff_not]
    have := hoct m
    omega
  have hany : ([natToStr (n % 2 ^ 32 / 2 ^ 24 % 256), natToStr (n % 2 ^ 32 / 2 ^ 16 % 256),
      natToStr (n % 2 ^ 32 / 2 ^ 8 % 256), natToStr (n % 2 ^ 32 % 256)].any
        fun o => decide (parseIntJS o > 255)) = false := by
    simp only [List.any_cons, List.any_nil, hone, Bool.or_self, Bool.or_false]
  simp only [hany, Bool.false_eq_true, if_false]

theorem getSubnetInfo_emit {n p : Nat} (hn : n < 2 ^ 32) (hp : p ≤ 32)
    (halign : n % 2 ^ (32 - p) = 0) :
    getSubnetInfo (intToIp n ++ ['/'] ++ natToStr p) = some
      { cidr := intToIp n ++ ['/'] ++ natToStr p
        networkAddress := intToIp n
        broadcastAddress := intToIp (n + (2 ^ (32 - p) - 1))
        firstHost := if p ≥ 31 then intToIp n else intToIp (n + 1)
        lastHost := if p ≥ 31 then intToIp (n + (2 ^ (32 - p) - 1))
          else intToIp (n + (2 ^ (32 - p) - 1) - 1)
        totalHosts := 2 ^ (32 - p)
        usableHosts := if p ≥ 31 then 2 ^ (32 - p) else 2 ^ (32 - p) - 2
        pfx := p
        networkInt := n
        broadcastInt := n + (2 ^ (32 - p) - 1) } := by
  have hkpos : 0 < 2 ^ (32 - p) := Nat.pos_pow_of_pos _ (by norm_num)
  have hipn : ipToInt (intToIp n) = n := by rw [ipToInt_intToIp, Nat.mod_eq_of_lt hn]
  have hland : n &&& maskOf p = n := by
    rw [maskOf_eq hp, land_high_mask (by omega) hn,
      Nat.div_mul_cancel (Nat.dvd_of_mod_eq_zero halign)]
  have hcompl : 2 ^ 32 - 1 - maskOf p = 2 ^ (32 - p) - 1 := by
    rw [maskOf_eq hp]
    have : 2 ^ (32 - p) ≤ 2 ^ 32 := Nat.pow_le_pow_right (by norm_num) (by omega)
    omega
  have hlor : n ||| (2 ^ (32 - p) - 1) = n + (2 ^ (32 - p) - 1) := by
    conv_lhs => rw [← Nat.div_mul_cancel (Nat.dvd_of_mod_eq_zero halign)]
    rw [lor_high_low (Nat.sub_lt hkpos (by norm_num)),
      Nat.div_mul_cancel (Nat.dvd_of_mod_eq_zero halign)]
  simp only [getSubnetInfo, parseCidr_emit hp, hipn, hland, hcompl, hlor]

theorem normalizeCidr_emit {n p : Nat} (hn : n < 2 ^ 32) (hp : p ≤ 32)
    (halign : n % 2 ^ (32 - p) = 0) :
    normalizeCidr (intToIp n ++ ['/'] ++ natToStr p) =
      some (intToIp n ++ ['/'] ++ natToStr p) := by
  have hipn : ipToInt (intToIp n) = n := by rw [ipToInt_intToIp, Nat.mod_eq_of_lt hn]
  have hland : n &&& maskOf p = n := by
    rw [maskOf_eq hp, land_high_mask (by omega) hn,
      Nat.div_mul_cancel (Nat.dvd_of_mod_eq_zero halign)]
  simp only [normalizeCidr, parseCidr_emit hp, hipn, hland]

/-- `normalizeCidr` is the `cidr` field of `getSubnetInfo`: both compose the
same parse with the same mask. -/
theorem normalizeCidr_eq_info_cidr (s : Str) :
    normalizeCidr s = (getSubnetInfo s).map (fun i => i.cidr) := by
  unfold normalizeCidr getSubnetInfo
  match hp : parseCidr s with
  | none => simp
  | some (ip, p) => simp

-- sanity checks against the spec's worked examples
example : normalizeCidr "10.0.1.5/16".toList = some "10.0.0.0/16".toList := by decide
example : (getSubnetInfo "10.0.0.0/16".toList).map (fun i => i.usableHosts) = some 65534 := by
  decide
example : splitCidr "10.0.0.0/16".toList 18 =
    ["10.0.0.0/18".toList, "10.0.64.0/18".toList, "10.0.128.0/18".toList,
      "10.0.192.0/18".toList] := by decide
example : cidrContains "10.0.0.0/16".toList "10.0.5.0/24".toList = true := by decide
example : cidrsOverlap "10.0.0.0/17".toList "10.0.200.0/24".toList = false := by decide


-- spec example 5: one /26 allocated inside a /24 scope
example :
    (buildSegments "192.168.0.0/24".toList
        [{ id := "a".toList, cidr := "192.168.0.0/26".toList, name := [],
           colorLabelId := none, parentCidr := "192.168.0.0/24".toList,
           notes := none }]).map (fun seg => (seg.type, seg.start, seg.endI)) =
      [(.allocated, 3232235520, 3232235583), (.free, 3232235584, 3232235775)] := by
  decide

example : firstAlignedCidr 3232235584 3232235775 27 = some "192.168.0.64/27".toList := by decide
example : firstAlignedCidr 3232235584 3232235775 25 = some "192.168.0.128/25".toList := by decide
example : suggestedPrefixes 4 29 = [30] := by decide

/-- A network-aligned 32-bit address plus its block size stays within the
address space. -/
theorem aligned_add_size_le {a k : Nat} (ha : a < 2 ^ 32) (hk : k ≤ 32)
    (hal : a % 2 ^ k = 0) : a + 2 ^ k ≤ 2 ^ 32 := by
  have hq := Nat.div_mul_cancel (Nat.dvd_of_mod_eq_zero hal)
  set q := a / 2 ^ k with hqdef
  have hkpos : 0 < 2 ^ k := Nat.pos_pow_of_pos _ (by norm_num)
  have hsplit : 2 ^ 32 = 2 ^ (32 - k) * 2 ^ k := by
    rw [← pow_add]; congr 1; omega
  have hqlt : q < 2 ^ (32 - k) := by
    by_contra hc
    push_neg at hc
    have : 2 ^ (32 - k) * 2 ^ k ≤ q * 2 ^ k := Nat.mul_le_mul_right _ hc
    omega
  have : (q + 1) * 2 ^ k ≤ 2 ^ (32 - k) * 2 ^ k := Nat.mul_le_mul_right _ hqlt
  calc a + 2 ^ k = q * 2 ^ k + 2 ^ k := by rw [hq]
    _ = (q + 1) * 2 ^ k := by ring
    _ ≤ 2 ^ (32 - k) * 2 ^ k := this
    _ = 2 ^ 32 := hsplit.symm

/-- The remaining field equations of `getSubnetInfo`, stated on the parsed
record. -/
theorem getSubnetInfo_fields {s : Str} {info : SubnetInfo}
    (h : getSubnetInfo s = some info) :
    info.usableHosts = (if info.pfx ≥ 31 then info.totalHosts else info.totalHosts - 2) ∧
      info.firstHost =
        (if info.pfx ≥ 31 then intToIp info.networkInt else intToIp (info.networkInt + 1)) ∧
      info.lastHost =
        (if info.pfx ≥ 31 then intToIp info.broadcastInt else intToIp (info.broadcastInt - 1)) ∧
      info.networkAddress = intToIp info.networkInt ∧
      info.broadcastAddress = intToIp info.broadcastInt ∧
      info.broadcastInt = info.networkInt ||| (2 ^ 32 - 1 - maskOf info.pfx) := by
  unfold getSubnetInfo at h
  match hp : parseCidr s with
  | none => rw [hp] at h; simp at h
  | some (ip, p) =>
    rw [hp] at h
    simp only [Option.some.injEq] at h
    obtain rfl := h.symm
    exact ⟨rfl, rfl, rfl, rfl, rfl, rfl⟩

theorem broadcastInt_lt {s : Str} {info : SubnetInfo} (h : getSubnetInfo s = some info) :
    info.broadcastInt < 2 ^ 32 := by
  obtain ⟨hple, hnet, halign, hbc, _, _⟩ := getSubnetInfo_props h
  have hkpos : 0 < 2 ^ (32 - info.pfx) := Nat.pos_pow_of_pos _ (by norm_num)
  have := aligned_add_size_le hnet (by omega) halign
  omega

/-- Claim C7: block info formulas with the /31 and /32 edge policy.  For
every successfully parsed CIDR text, the derived info satisfies
`broadcastAddress = networkAddress | ~mask`, `totalHosts = 2^(32-prefix)`,
`usableHosts = totalHosts` for prefix 31 and 32 and `max (0, totalHosts-2)`
otherwise, and first/last host addresses equal to the network/broadcast
addresses for prefix 31 and 32 and to network+1 / broadcast-1 otherwise
(stated on the address integers via `ipToInt`). -/
theorem blockInfo_formulas (s : Str) (info : SubnetInfo)
    (h : getSubnetInfo s = some info) :
    info.broadcastInt = info.networkInt ||| (2 ^ 32 - 1 - maskOf info.pfx) ∧
      info.broadcastInt = info.networkInt + info.totalHosts - 1 ∧
      info.totalHosts = 2 ^ (32 - info.pfx) ∧
      info.usableHosts = (if info.pfx ≥ 31 then info.totalHosts else info.totalHosts - 2) ∧
      ipToInt info.firstHost =
        (if info.pfx ≥ 31 then info.networkInt else info.networkInt + 1) ∧
      ipToInt info.lastHost =
        (if info.pfx ≥ 31 then info.broadcastInt else info.broadcastInt - 1) := by
  obtain ⟨hple, hnet, halign, hbc, htot, _⟩ := getSubnetInfo_props h
  obtain ⟨husable, hfirst, hlast, _, _, hlor⟩ := getSubnetInfo_fields h
  have hkpos : 0 < 2 ^ (32 - info.pfx) := Nat.pos_pow_of_pos _ (by norm_num)
  have hbclt : info.broadcastInt < 2 ^ 32 := broadcastInt_lt h
  have h4 : info.pfx ≤ 30 → 4 ≤ 2 ^ (32 - info.pfx) := fun h30 => by
    calc (4 : Nat) = 2 ^ 2 := by norm_num
      _ ≤ 2 ^ (32 - info.pfx) := Nat.pow_le_pow_right (by norm_num) (by omega)
  refine ⟨hlor, by omega, htot, husable, ?_, ?_⟩
  · rw [hfirst]
    by_cases h31 : info.pfx ≥ 31
    · simp only [h31, if_true]
      rw [ipToInt_intToIp, Nat.mod_eq_of_lt hnet]
    · simp only [h31, if_false]
      have := h4 (by omega)
      rw [ipToInt_intToIp, Nat.mod_eq_of_lt (by omega)]
  · rw [hlast]
    by_cases h31 : info.pfx ≥ 31
    · simp only [h31, if_true]
      rw [ipToInt_intToIp, Nat.mod_eq_of_lt hbclt]
    · simp only [h31, if_false]
      rw [ipToInt_intToIp, Nat.mod_eq_of_lt (by omega)]

/-- Witness for C7 at the spec's own example `10.0.0.0/16`. -/
theorem blockInfo_formulas_witness :
    ∃ info, getSubnetInfo "10.0.0.0/16".toList = some info ∧
      (info.broadcastInt = info.networkInt ||| (2 ^ 32 - 1 - maskOf info.pfx) ∧
        info.broadcastInt = info.networkInt + info.totalHosts - 1 ∧
        info.totalHosts = 2 ^ (32 - info.pfx) ∧
        info.usableHosts = (if info.pfx ≥ 31 then info.totalHosts else info.totalHosts - 2) ∧
        ipToInt info.firstHost =
          (if info.pfx ≥ 31 then info.networkInt else info.networkInt + 1) ∧
        ipToInt info.lastHost =
          (if info.pfx ≥ 31 then info.broadcastInt else info.broadcastInt - 1)) := by
  obtain ⟨info, hinfo⟩ : ∃ info, getSubnetInfo "10.0.0.0/16".toList = some info := by
    match h : getSubnetInfo "10.0.0.0/16".toList with
    | some i => exact ⟨i, rfl⟩
    | none => exact absurd h (by decide)
  exact ⟨info, hinfo, blockInfo_formulas _ info hinfo⟩

/-- Claim C5 (corrected): in the gap from `192.168.0.64` to `192.168.0.255`,
the first aligned /27 is `192.168.0.64/27`, and the first aligned /25 is
`192.168.0.128/25` — contrary to the spec's example, a /25 does fit. -/
theorem firstAligned_example :
    firstAlignedCidr 3232235584 3232235775 27 = some "192.168.0.64/27".toList ∧
      firstAlignedCidr 3232235584 3232235775 25 = some "192.168.0.128/25".toList ∧
      ipToInt "192.168.0.64".toList = 3232235584 ∧
      ipToInt "192.168.0.255".toList = 3232235775 := by
  refine ⟨by decide, by decide, by decide, by decide⟩

/-- Counterexample to C5 as stated: at prefix 25 the result is not `none`,
the aligned block `192.168.0.128/25` fits inside the gap. -/
theorem firstAligned_example_not_none :
    firstAlignedCidr 3232235584 3232235775 25 ≠ none ∧
      ipToInt "192.168.0.64".toList = 3232235584 ∧
      ipToInt "192.168.0.255".toList = 3232235775 := by
  refine ⟨by decide, by decide, by decide⟩

theorem suggested_fold_stopped (g : Nat) : ∀ (l : List Nat) (acc : List Nat),
    l.foldl (suggestedStep g) (acc, true) = (acc, true) := by
  intro l
  induction l with
  | nil => intro acc; rfl
  | cons p l ih => intro acc; simpa [suggestedStep] using ih acc

theorem suggested_fold (g : Nat) : ∀ (l acc : List Nat), acc.length < 8 →
    (l.foldl (suggestedStep g) (acc, false)).1 =
      acc ++ (l.filter (fun p => decide (2 ^ (32 - p) ≤ g))).take (8 - acc.length) := by
  intro l
  induction l with
  | nil => intro acc h; simp
  | cons p l ih =>
    intro acc hlen
    have hstep : suggestedStep g (acc, false) p =
        (if 2 ^ (32 - p) ≤ g then acc ++ [p] else acc,
          decide ((if 2 ^ (32 - p) ≤ g then acc ++ [p] else acc).length ≥ 8)) := rfl
    rw [List.foldl_cons, hstep, List.filter_cons]
    have hacclen : (acc ++ [p]).length = acc.length + 1 := by simp
    by_cases hcond : 2 ^ (32 - p) ≤ g
    · rw [if_pos hcond,
        if_pos (show decide (2 ^ (32 - p) ≤ g) = true by simpa using hcond)]
      by_cases hfull : (acc ++ [p]).length ≥ 8
      · have h8 : decide ((acc ++ [p]).length ≥ 8) = true := by simpa using hfull
        rw [h8, suggested_fold_stopped]
        have htake : 8 - acc.length = 1 := by omega
        simp [htake]
      · have h8 : decide ((acc ++ [p]).length ≥ 8) = false := by
          simp only [decide_eq_false_iff_not]
          exact hfull
        rw [h8, ih (acc ++ [p]) (by omega)]
        have hsub : 8 - (acc ++ [p]).length = 8 - acc.length - 1 := by omega
        rw [hsub, show 8 - acc.length = (8 - acc.length - 1) + 1 by omega]
        simp [List.take_succ_cons, List.append_assoc]
    · rw [if_neg hcond,
        if_neg (show ¬ decide (2 ^ (32 - p) ≤ g) = true by simpa using hcond)]
      have h8 : decide (acc.length ≥ 8) = false := by
        simp only [decide_eq_false_iff_not]
        omega
      rw [h8, ih acc hlen]

/-- Claim C8 (corrected): `suggestedPrefixes(gapSize, minPrefix)` is the
ascending list of prefix lengths `p` with `minPrefix < p ≤ 30` whose block
size `2^(32-p)` fits the gap, truncated to the first eight — the scan stops
at /30, so /31 and /32 are never offered even when they fit. -/
theorem suggestedPrefixes_spec (gapSize minPfx : Nat) :
    suggestedPrefixes gapSize minPfx =
      ((List.range' (minPfx + 1) (30 - minPfx)).filter
        (fun p => decide (2 ^ (32 - p) ≤ gapSize))).take 8 ∧
      List.Pairwise (· < ·) (suggestedPrefixes gapSize minPfx) ∧
      (∀ p ∈ suggestedPrefixes gapSize minPfx,
        minPfx < p ∧ p ≤ 30 ∧ 2 ^ (32 - p) ≤ gapSize) := by
  have hmain : suggestedPrefixes gapSize minPfx =
      ((List.range' (minPfx + 1) (30 - minPfx)).filter
        (fun p => decide (2 ^ (32 - p) ≤ gapSize))).take 8 := by
    unfold suggestedPrefixes
    rw [suggested_fold gapSize _ [] (by norm_num)]
    simp
  have hrange : List.Pairwise (· < ·) (List.range' (minPfx + 1) (30 - minPfx)) := by
    have := List.pairwise_lt_range' (minPfx + 1) (30 - minPfx) 1 (by omega)
    simpa using this
  have hsub : List.Sublist (suggestedPrefixes gapSize minPfx)
      (List.range' (minPfx + 1) (30 - minPfx)) := by
    rw [hmain]
    exact (List.take_sublist _ _).trans (List.filter_sublist _)
  refine ⟨hmain, List.Pairwise.sublist hsub hrange, ?_⟩
  intro p hp
  have hmem := hsub.mem hp
  have hrange' := List.mem_range'.mp hmem
  have hcond : p ∈ (List.range' (minPfx + 1) (30 - minPfx)).filter
      (fun p => decide (2 ^ (32 - p) ≤ gapSize)) := by
    rw [hmain] at hp
    exact (List.take_sublist _ _).mem hp
  have := (List.mem_filter.mp hcond).2
  simp only [decide_eq_true_eq] at this
  obtain ⟨i, _, hi⟩ := hrange'
  exact ⟨by omega, by omega, this⟩

/-- Counterexample to C8 as stated: with a gap of four addresses above /29,
prefix 31 qualifies under the claim's filter (31 > 29, block size 2 ≤ 4)
but is not returned, and not because of a count cap — only one prefix is
returned, well under the loop's own cap of eight. -/
theorem suggestedPrefixes_counterexample :
    suggestedPrefixes 4 29 = [30] ∧ 29 < 31 ∧ 2 ^ (32 - 31) ≤ 4 ∧
      (31 : Nat) ∉ suggestedPrefixes 4 29 ∧ (suggestedPrefixes 4 29).length < 8 := by
  refine ⟨by decide, by decide, by decide, by decide, by decide⟩

theorem ceil_le_of_le {q b g : Nat} (hb : 0 < b) (h : g ≤ q * b) : (g + b - 1) / b ≤ q := by
  rw [Nat.div_le_iff_le_mul_add_pred hb, Nat.mul_comm b q]
  omega

theorem firstAlignedCidr_eq (gapStart gapEnd pfx : Nat) :
    firstAlignedCidr gapStart gapEnd pfx =
      if (gapStart + 2 ^ (32 - pfx) - 1) / 2 ^ (32 - pfx) * 2 ^ (32 - pfx) +
          2 ^ (32 - pfx) - 1 > gapEnd then none
      else some (intToIp ((gapStart + 2 ^ (32 - pfx) - 1) / 2 ^ (32 - pfx) *
        2 ^ (32 - pfx) % 2 ^ 32) ++ ['/'] ++ natToStr pfx) := rfl

theorem le_ceil_mul {a b : Nat} (hb : 0 < b) : a ≤ (a + b - 1) / b * b := by
  have hdm := Nat.div_add_mod (a + b - 1) b
  have hmlt : (a + b - 1) % b < b := Nat.mod_lt _ hb
  have hcomm : (a + b - 1) / b * b = b * ((a + b - 1) / b) := Nat.mul_comm _ _
  rw [hcomm]
  omega

/-- Claim C4: the gap filler computes `blockSize = 2^(32-prefix)` and
`candidateStart = ceil(gapStart / blockSize) * blockSize`, returns `none`
exactly when `candidateStart + blockSize - 1 > gapEnd`, and otherwise the
block at `candidateStart` with the requested prefix length — which is the
first aligned block of that size that fits inside `[gapStart, gapEnd]`
scanning upward from `gapStart`. -/
theorem firstAligned_spec (gapStart gapEnd pfx : Nat) (hp : pfx ≤ 32)
    (hend : gapEnd < 2 ^ 32) :
    (firstAlignedCidr gapStart gapEnd pfx = none ↔
      (gapStart + 2 ^ (32 - pfx) - 1) / 2 ^ (32 - pfx) * 2 ^ (32 - pfx) +
        2 ^ (32 - pfx) - 1 > gapEnd) ∧
    (∀ c, firstAlignedCidr gapStart gapEnd pfx = some c →
      ∃ info, getSubnetInfo c = some info ∧ info.pfx = pfx ∧
        info.networkInt =
          (gapStart + 2 ^ (32 - pfx) - 1) / 2 ^ (32 - pfx) * 2 ^ (32 - pfx) ∧
        info.networkInt % 2 ^ (32 - pfx) = 0 ∧ gapStart ≤ info.networkInt ∧
        info.networkInt + 2 ^ (32 - pfx) - 1 ≤ gapEnd ∧
        (∀ a, a % 2 ^ (32 - pfx) = 0 → gapStart ≤ a →
          a + 2 ^ (32 - pfx) - 1 ≤ gapEnd → info.networkInt ≤ a)) := by
  have hbs : 0 < 2 ^ (32 - pfx) := Nat.pos_pow_of_pos _ (by norm_num)
  constructor
  · rw [firstAlignedCidr_eq]
    by_cases h : (gapStart + 2 ^ (32 - pfx) - 1) / 2 ^ (32 - pfx) * 2 ^ (32 - pfx) +
        2 ^ (32 - pfx) - 1 > gapEnd
    · simp [h]
    · simp [h]
  · intro c hc
    rw [firstAlignedCidr_eq] at hc
    by_cases h : (gapStart + 2 ^ (32 - pfx) - 1) / 2 ^ (32 - pfx) * 2 ^ (32 - pfx) +
        2 ^ (32 - pfx) - 1 > gapEnd
    · rw [if_pos h] at hc
      exact absurd hc (by simp)
    · rw [if_neg h] at hc
      push_neg at h
      have hcandlt : (gapStart + 2 ^ (32 - pfx) - 1) / 2 ^ (32 - pfx) * 2 ^ (32 - pfx) <
          2 ^ 32 := by omega
      have hmod : (gapStart + 2 ^ (32 - pfx) - 1) / 2 ^ (32 - pfx) * 2 ^ (32 - pfx) %
          2 ^ 32 = (gapStart + 2 ^ (32 - pfx) - 1) / 2 ^ (32 - pfx) * 2 ^ (32 - pfx) :=
        Nat.mod_eq_of_lt hcandlt
      have halign : (gapStart + 2 ^ (32 - pfx) - 1) / 2 ^ (32 - pfx) * 2 ^ (32 - pfx) %
          2 ^ (32 - pfx) = 0 := Nat.mul_mod_left _ _
      have hinj := Option.some.inj hc
      obtain rfl : intToIp ((gapStart + 2 ^ (32 - pfx) - 1) / 2 ^ (32 - pfx) *
          2 ^ (32 - pfx)) ++ ['/'] ++ natToStr pfx = c := by rw [← hinj, hmod]
      refine ⟨_, getSubnetInfo_emit hcandlt hp halign, rfl, rfl, halign,
        le_ceil_mul hbs,
        (show (gapStart + 2 ^ (32 - pfx) - 1) / 2 ^ (32 - pfx) * 2 ^ (32 - pfx) +
          2 ^ (32 - pfx) - 1 ≤ gapEnd by omega), ?_⟩
      intro a hal hga hfit
      obtain ⟨q, rfl⟩ : ∃ q, a = q * 2 ^ (32 - pfx) :=
        ⟨a / 2 ^ (32 - pfx), (Nat.div_mul_cancel (Nat.dvd_of_mod_eq_zero hal)).symm⟩
      exact Nat.mul_le_mul_right _ (ceil_le_of_le hbs hga)

/-- Witness for C4 at the spec's example gap `[192.168.0.64, 192.168.0.255]`
with prefix 27. -/
theorem firstAligned_spec_witness :
    27 ≤ 32 ∧ 3232235775 < 2 ^ 32 ∧
      ((firstAlignedCidr 3232235584 3232235775 27 = none ↔
        (3232235584 + 2 ^ (32 - 27) - 1) / 2 ^ (32 - 27) * 2 ^ (32 - 27) +
          2 ^ (32 - 27) - 1 > 3232235775) ∧
      (∀ c, firstAlignedCidr 3232235584 3232235775 27 = some c →
        ∃ info, getSubnetInfo c = some info ∧ info.pfx = 27 ∧
          info.networkInt =
            (3232235584 + 2 ^ (32 - 27) - 1) / 2 ^ (32 - 27) * 2 ^ (32 - 27) ∧
          info.networkInt % 2 ^ (32 - 27) = 0 ∧ 3232235584 ≤ info.networkInt ∧
          info.networkInt + 2 ^ (32 - 27) - 1 ≤ 3232235775 ∧
          (∀ a, a % 2 ^ (32 - 27) = 0 → 3232235584 ≤ a →
            a + 2 ^ (32 - 27) - 1 ≤ 3232235775 → info.networkInt ≤ a))) :=
  ⟨by decide, by decide,
    firstAligned_spec 3232235584 3232235775 27 (by decide) (by decide)⟩

/-! ## Rebuilding a string from its splitOn pieces -/

theorem joinSep_splitOn (c : Char) : ∀ s, joinSep c (splitOn c s) = s := by
  intro s
  induction s with
  | nil => rfl
  | cons x rest ih =>
    simp only [splitOn]
    by_cases hx : x = c
    · rw [if_pos hx]
      match h : splitOn c rest with
      | [] => exact absurd h (splitOn_ne_nil c rest)
      | p :: ps =>
        rw [h] at ih
        simp only [joinSep]
        rw [ih, hx]
        rfl
    · rw [if_neg hx]
      match h : splitOn c rest with
      | [] => exact absurd h (splitOn_ne_nil c rest)
      | [p] =>
        rw [h] at ih
        simp only [joinSep] at ih ⊢
        rw [ih]
      | p :: q :: ps =>
        rw [h] at ih
        simp only [joinSep] at ih ⊢
        rw [List.cons_append, ih]

theorem not_mem_of_mem_splitOn (c : Char) : ∀ s piece, piece ∈ splitOn c s →
    c ∉ piece := by
  intro s
  induction s with
  | nil =>
    intro piece h
    simp only [splitOn, List.mem_singleton] at h
    subst h
    simp
  | cons x rest ih =>
    intro piece h
    simp only [splitOn] at h
    by_cases hx : x = c
    · rw [if_pos hx] at h
      rcases List.mem_cons.mp h with rfl | h
      · simp
      · exact ih piece h
    · rw [if_neg hx] at h
      match hs : splitOn c rest with
      | [] => exact absurd hs (splitOn_ne_nil c rest)
      | p :: ps =>
        rw [hs] at h
        rcases List.mem_cons.mp h with rfl | h
        · intro hc
          rcases List.mem_cons.mp hc with rfl | hc
          · exact hx rfl
          · exact ih p (hs ▸ List.mem_cons_self p ps) hc
        · exact ih piece (hs ▸ List.mem_cons_of_mem p h)

/-! ## Canonical decimal strings -/

theorem parseIntJS_eq_digitsVal {o : Str} (hd : ∀ c ∈ o, c.isDigit = true) :
    parseIntJS o = digitsVal (o.map digitVal) := by
  have hmapinv : (o.map digitVal).map toDigitChar = o := by
    rw [List.map_map]
    have heq : ∀ c ∈ o, (toDigitChar ∘ digitVal) c = id c := fun c hc =>
      toDigitChar_digitVal (hd c hc)
    rw [List.map_congr_left heq, List.map_id]
  have hds : ∀ d ∈ o.map digitVal, d < 10 := by
    intro d hdm
    obtain ⟨c, hc, rfl⟩ := List.mem_map.mp hdm
    exact digitVal_lt_ten (hd c hc)
  conv_lhs => rw [← hmapinv]
  rw [parseIntJS, parseIntJS_go_digits _ _ hds]
  rfl

theorem head_digitVal_ne_zero {o : Str} (hd : ∀ c ∈ o, c.isDigit = true)
    (hh : o.head? ≠ some '0') : (o.map digitVal).head? ≠ some 0 := by
  match o with
  | [] => simp
  | c0 :: rest =>
    simp only [List.map_cons, List.head?_cons, ne_eq, Option.some.injEq] at hh ⊢
    intro hz
    apply hh
    have := toDigitChar_digitVal (hd c0 (by simp))
    rw [hz] at this
    rw [← this]
    rfl

/-- A canonical digit string of value at most 255 has at most three
characters. -/
theorem canonical_length_le {o : Str} (hd : ∀ c ∈ o, c.isDigit = true) (hne : o ≠ [])
    (hval : parseIntJS o ≤ 255) (hcanon : o.length = 1 ∨ o.head? ≠ some '0') :
    o.length ≤ 3 := by
  rcases hcanon with h1 | h1
  · omega
  · by_contra hc
    push_neg at hc
    match o, hne with
    | c0 :: rest, _ =>
      have hmap : (c0 :: rest).map digitVal = digitVal c0 :: rest.map digitVal := rfl
      have hz : digitVal c0 ≠ 0 := by
        have := head_digitVal_ne_zero hd h1
        rw [hmap] at this
        simpa using this
      have hge := @digitsVal_head_ge _ (rest.map digitVal) hz
      rw [← hmap, ← parseIntJS_eq_digitsVal hd] at hge
      have hlen : rest.length ≥ 3 := by
        simp only [List.length_cons] at hc
        omega
      have hpow : 10 ^ 3 ≤ 10 ^ (rest.map digitVal).length := by
        apply Nat.pow_le_pow_right (by norm_num)
        simpa using hlen
      omega

theorem natToStr_parseIntJS {o : Str} (hd : ∀ c ∈ o, c.isDigit = true) (hne : o ≠ [])
    (hcanon : o.length = 1 ∨ o.head? ≠ some '0') (hlen : o.length ≤ 15) :
    natToStr (parseIntJS o) = o := by
  have hmapinv : (o.map digitVal).map toDigitChar = o := by
    rw [List.map_map]
    have heq : ∀ c ∈ o, (toDigitChar ∘ digitVal) c = id c := fun c hc =>
      toDigitChar_digitVal (hd c hc)
    rw [List.map_congr_left heq, List.map_id]
  have hds : ∀ d ∈ o.map digitVal, d < 10 := by
    intro d hdm
    obtain ⟨c, hc, rfl⟩ := List.mem_map.mp hdm
    exact digitVal_lt_ten (hd c hc)
  rw [parseIntJS_eq_digitsVal hd, natToStr_eq_map]
  rw [natDigits_digitsVal 15 _ hds (by simpa using hlen) (by simpa using hne) ?_, hmapinv]
  rcases hcanon with h1 | h1
  · exact Or.inl (by simpa using h1)
  · exact Or.inr (head_digitVal_ne_zero hd h1)

theorem ipToInt_of_splitOn {s o1 o2 o3 o4 : Str} (h : splitOn '.' s = [o1, o2, o3, o4])
    (h1 : parseIntJS o1 < 256) (h2 : parseIntJS o2 < 256) (h3 : parseIntJS o3 < 256)
    (h4 : parseIntJS o4 < 256) :
    ipToInt s = ((parseIntJS o1 * 256 + parseIntJS o2) * 256 + parseIntJS o3) * 256 +
      parseIntJS o4 := by
  unfold ipToInt
  rw [h]
  simp only [List.foldl_cons, List.foldl_nil]
  have s1 : ((0 * 256) % 2 ^ 32) ||| (parseIntJS o1 % 2 ^ 32) = parseIntJS o1 := by
    rw [Nat.zero_mul, Nat.zero_mod, Nat.zero_or, Nat.mod_eq_of_lt (by omega)]
  rw [s1, ipToInt_step (by omega) h2, ipToInt_step (by omega) h3, ipToInt_step (by omega) h4]

theorem intToIp_eq (n : Nat) : intToIp n =
    natToStr (n % 2 ^ 32 / 2 ^ 24 % 256) ++ ['.'] ++ natToStr (n % 2 ^ 32 / 2 ^ 16 % 256) ++
      ['.'] ++ natToStr (n % 2 ^ 32 / 2 ^ 8 % 256) ++ ['.'] ++ natToStr (n % 2 ^ 32 % 256) :=
  rfl

theorem octet_roundtrip {o : Str} (hl : 1 ≤ o.length) (hd : o.all Char.isDigit = true)
    (hv : parseIntJS o ≤ 255) (hc : o.length = 1 ∨ o.head? ≠ some '0') :
    natToStr (parseIntJS o) = o ∧ parseIntJS o < 256 := by
  have hd' : ∀ c ∈ o, c.isDigit = true := by
    rw [List.all_eq_true] at hd
    intro c hc'
    exact hd c hc'
  have hne : o ≠ [] := by
    intro he
    rw [he] at hl
    simp at hl
  refine ⟨natToStr_parseIntJS hd' hne hc ?_, by omega⟩
  have := canonical_length_le hd' hne hv hc
  omega

/-- Claim C9 (corrected): the format-after-parse direction holds for
canonical dotted-decimal texts (no leading zeros in any octet), and the
parse-after-format direction holds for every 32-bit address value. -/
theorem addressCodec_roundTrip :
    (∀ s : Str, isCanonicalQuad s = true → intToIp (ipToInt s) = s) ∧
      (∀ n : Nat, n < 2 ^ 32 → ipToInt (intToIp n) = n) := by
  constructor
  · intro s h
    unfold isCanonicalQuad at h
    match hs : splitOn '.' s with
    | [] => rw [hs] at h; simp at h
    | [o1] => rw [hs] at h; simp at h
    | [o1, o2] => rw [hs] at h; simp at h
    | [o1, o2, o3] => rw [hs] at h; simp at h
    | o1 :: o2 :: o3 :: o4 :: o5 :: rest => rw [hs] at h; simp at h
    | [o1, o2, o3, o4] =>
      rw [hs] at h
      simp only [List.all_cons, List.all_nil, Bool.and_true, Bool.and_eq_true,
        Bool.or_eq_true, decide_eq_true_eq] at h
      obtain ⟨⟨⟨⟨hl1, hd1⟩, hv1⟩, hc1⟩, ⟨⟨⟨hl2, hd2⟩, hv2⟩, hc2⟩,
        ⟨⟨⟨hl3, hd3⟩, hv3⟩, hc3⟩, ⟨⟨⟨hl4, hd4⟩, hv4⟩, hc4⟩⟩ := h
      have r1 := octet_roundtrip hl1 hd1 hv1 hc1
      have r2 := octet_roundtrip hl2 hd2 hv2 hc2
      have r3 := octet_roundtrip hl3 hd3 hv3 hc3
      have r4 := octet_roundtrip hl4 hd4 hv4 hc4
      have hV := ipToInt_of_splitOn hs r1.2 r2.2 r3.2 r4.2
      have hs' := joinSep_splitOn '.' s
      rw [hs] at hs'
      simp only [joinSep] at hs'
      have hb1 := r1.2
      have hb2 := r2.2
      have hb3 := r3.2
      have hb4 := r4.2
      rw [hV, intToIp_eq]
      have e0 : (((parseIntJS o1 * 256 + parseIntJS o2) * 256 + parseIntJS o3) * 256 +
          parseIntJS o4) % 2 ^ 32 =
          ((parseIntJS o1 * 256 + parseIntJS o2) * 256 + parseIntJS o3) * 256 +
            parseIntJS o4 := Nat.mod_eq_of_lt (by omega)
      rw [e0]
      have e1 : (((parseIntJS o1 * 256 + parseIntJS o2) * 256 + parseIntJS o3) * 256 +
          parseIntJS o4) / 2 ^ 24 % 256 = parseIntJS o1 := by omega
      have e2 : (((parseIntJS o1 * 256 + parseIntJS o2) * 256 + parseIntJS o3) * 256 +
          parseIntJS o4) / 2 ^ 16 % 256 = parseIntJS o2 := by omega
      have e3 : (((parseIntJS o1 * 256 + parseIntJS o2) * 256 + parseIntJS o3) * 256 +
          parseIntJS o4) / 2 ^ 8 % 256 = parseIntJS o3 := by omega
      have e4 : (((parseIntJS o1 * 256 + parseIntJS o2) * 256 + parseIntJS o3) * 256 +
          parseIntJS o4) % 256 = parseIntJS o4 := by omega
      rw [e1, e2, e3, e4, r1.1, r2.1, r3.1, r4.1, ← hs']
      simp [List.append_assoc]
  · intro n hn
    rw [ipToInt_intToIp, Nat.mod_eq_of_lt hn]

/-- Witness for C9 (corrected) at `192.168.0.1` in both directions. -/
theorem addressCodec_roundTrip_witness :
    isCanonicalQuad "192.168.0.1".toList = true ∧
      intToIp (ipToInt "192.168.0.1".toList) = "192.168.0.1".toList ∧
      3232235521 < 2 ^ 32 ∧ ipToInt (intToIp 3232235521) = 3232235521 :=
  ⟨by decide, addressCodec_roundTrip.1 _ (by decide), by decide,
    addressCodec_roundTrip.2 _ (by decide)⟩

/-- Counterexample to C9 as stated: `10.0.0.01` is four dot-separated
decimal octets each within `[0, 255]`, yet format-after-parse yields
`10.0.0.1`, not the original text. -/
theorem roundTrip_counterexample :
    isDottedQuad "10.0.0.01".toList = true ∧
      intToIp (ipToInt "10.0.0.01".toList) ≠ "10.0.0.01".toList ∧
      intToIp (ipToInt "10.0.0.01".toList) = "10.0.0.1".toList :=
  ⟨by decide, by decide, by decide⟩

theorem find_id_eq {subnets : List SubnetEntry} {target : SubnetEntry}
    (hmem : target ∈ subnets)
    (huniq : ∀ a ∈ subnets, a.id = target.id → a = target) :
    subnets.find? (fun s => s.id = target.id) = some target := by
  induction subnets with
  | nil => simp at hmem
  | cons x xs ih =>
    by_cases hx : x.id = target.id
    · have hxt : x = target := huniq x (by simp) hx
      subst hxt
      simp [List.find?_cons, hx]
    · simp only [List.find?_cons, decide_eq_false hx]
      rcases List.mem_cons.mp hmem with hrfl | hmem'
      · exact absurd (hrfl ▸ rfl) hx
      · exact ih hmem' (fun a ha => huniq a (by simp [ha]))

/-- Claim C3: cascade deletion removes exactly the target and the entries
whose block lies inside the target's block — both in the store-level
`deleteSubnet` and the page-level `handleDeleteSubnet` — and leaves every
other entry in place, in order, unchanged.  `cidrContains` is the
repository's own containment oracle; entries are identified by their `id`,
assumed unique in the set. -/
theorem cascade_delete (subnets : List SubnetEntry) (target : SubnetEntry)
    (hmem : target ∈ subnets)
    (huniq : ∀ a ∈ subnets, ∀ b ∈ subnets, a.id = b.id → a = b) :
    deleteSubnet subnets target.id =
      subnets.filter (fun e => !(decide (e = target) || cidrContains target.cidr e.cidr)) ∧
    handleDeleteSubnet subnets target.id =
      subnets.filter (fun e => !(decide (e = target) || cidrContains target.cidr e.cidr)) := by
  have hfind : subnets.find? (fun s => s.id = target.id) = some target :=
    find_id_eq hmem (fun a ha h => huniq a ha target hmem h)
  constructor
  · unfold deleteSubnet
    rw [hfind]
    apply List.filter_congr
    intro e hmem_e
    by_cases hid : e.id = target.id
    · have he : e = target := huniq e hmem_e target hmem hid
      subst he
      simp
    · have hne : ¬ e = target := fun h => hid (by rw [h])
      simp only [decide_eq_false hid, Bool.false_eq_true, if_false,
        decide_eq_false hne, Bool.false_or]
      cases hsi : getSubnetInfo e.cidr <;> cases hti : getSubnetInfo target.cidr <;>
        simp [cidrContains, hsi, hti, hid]
  · unfold handleDeleteSubnet
    rw [hfind]
    apply List.filter_congr
    intro e hmem_e
    congr 1
    rw [Bool.eq_iff_iff, List.any_eq_true, Bool.or_eq_true]
    constructor
    · rintro ⟨d, hd, hde⟩
      rw [List.mem_filter] at hd
      obtain ⟨hdmem, hdcond⟩ := hd
      have hde' : d = e := huniq d hdmem e hmem_e (by simpa using hde)
      subst hde'
      rw [Bool.or_eq_true] at hdcond
      rcases hdcond with h1 | h1
      · exact Or.inl (by simp [huniq d hdmem target hmem (by simpa using h1)])
      · right
        cases hsi : getSubnetInfo d.cidr <;> cases hti : getSubnetInfo target.cidr <;>
          rw [hsi, hti] at h1 <;> simp [cidrContains, hsi, hti] at h1 ⊢
        · exact h1
    · intro h
      refine ⟨e, ?_, by simp⟩
      rw [List.mem_filter]
      refine ⟨hmem_e, ?_⟩
      rw [Bool.or_eq_true]
      rcases h with h1 | h1
      · left
        simp only [decide_eq_true_eq] at h1
        simp [h1]
      · right
        cases hsi : getSubnetInfo e.cidr <;> cases hti : getSubnetInfo target.cidr <;>
          simp [cidrContains, hsi, hti] at h1 ⊢
        · exact h1

/-- Witness for C3: deleting the `/25` removes it and its nested `/26`,
keeping the sibling `/26` and the enclosing `/24`. -/
theorem cascade_delete_witness :
    deleteSubnet
        [{ id := "r".toList, cidr := "10.0.0.0/24".toList, name := [],
           colorLabelId := none, parentCidr := [], notes := none },
         { id := "a".toList, cidr := "10.0.0.0/25".toList, name := [],
           colorLabelId := none, parentCidr := "10.0.0.0/24".toList, notes := none },
         { id := "b".toList, cidr := "10.0.0.0/26".toList, name := [],
           colorLabelId := none, parentCidr := "10.0.0.0/25".toList, notes := none },
         { id := "c".toList, cidr := "10.0.0.128/26".toList, name := [],
           colorLabelId := none, parentCidr := "10.0.0.0/24".toList, notes := none }]
        "a".toList =
      [{ id := "r".toList, cidr := "10.0.0.0/24".toList, name := [],
         colorLabelId := none, parentCidr := [], notes := none },
       { id := "c".toList, cidr := "10.0.0.128/26".toList, name := [],
         colorLabelId := none, parentCidr := "10.0.0.0/24".toList, notes := none }] := by
  have h := (cascade_delete
    [{ id := "r".toList, cidr := "10.0.0.0/24".toList, name := [],
       colorLabelId := none, parentCidr := [], notes := none },
     { id := "a".toList, cidr := "10.0.0.0/25".toList, name := [],
       colorLabelId := none, parentCidr := "10.0.0.0/24".toList, notes := none },
     { id := "b".toList, cidr := "10.0.0.0/26".toList, name := [],
       colorLabelId := none, parentCidr := "10.0.0.0/25".toList, notes := none },
     { id := "c".toList, cidr := "10.0.0.128/26".toList, name := [],
       colorLabelId := none, parentCidr := "10.0.0.0/24".toList, notes := none }]
    { id := "a".toList, cidr := "10.0.0.0/25".toList, name := [],
      colorLabelId := none, parentCidr := "10.0.0.0/24".toList, notes := none }
    (by decide) (by decide)).1
  rw [h]
  decide

/-! ## Strict containment of parsed blocks -/

theorem cidrContains_eq_of {a b : Str} {ia ib : SubnetInfo}
    (ha : getSubnetInfo a = some ia) (hb : getSubnetInfo b = some ib) :
    cidrContains a b =
      (decide (ib.networkInt ≥ ia.networkInt) && decide (ib.broadcastInt ≤ ia.broadcastInt)) := by
  unfold cidrContains
  rw [ha, hb]

theorem cidrContains_false_left {a b : Str} (ha : getSubnetInfo a = none) :
    cidrContains a b = false := by
  unfold cidrContains
  rw [ha]

theorem cidrContains_false_right {a b : Str} (hb : getSubnetInfo b = none) :
    cidrContains a b = false := by
  unfold cidrContains
  rw [hb]
  cases getSubnetInfo a <;> rfl

/-- Range inclusion between parsed blocks forces the inner block's prefix
to be at least the outer's. -/
theorem pfx_le_of_range_le {a b : Str} {ia ib : SubnetInfo}
    (ha : getSubnetInfo a = some ia) (hb : getSubnetInfo b = some ib)
    (hn : ia.networkInt ≤ ib.networkInt) (hc : ib.broadcastInt ≤ ia.broadcastInt) :
    ia.pfx ≤ ib.pfx := by
  obtain ⟨hpa, _, _, hbca, _, _⟩ := getSubnetInfo_props ha
  obtain ⟨hpb, _, _, hbcb, _, _⟩ := getSubnetInfo_props hb
  have hpow : 2 ^ (32 - ib.pfx) ≤ 2 ^ (32 - ia.pfx) := by
    have h1 : 0 < 2 ^ (32 - ia.pfx) := Nat.pos_pow_of_pos _ (by norm_num)
    have h2 : 0 < 2 ^ (32 - ib.pfx) := Nat.pos_pow_of_pos _ (by norm_num)
    omega
  have := (Nat.pow_le_pow_iff_right (by norm_num : 1 < 2)).mp hpow
  omega

/-- Strict containment: `a` contains `b` but not conversely, iff `b`'s
range is inside `a`'s with a strictly longer prefix. -/
theorem strict_contains_iff {a b : Str} {ia ib : SubnetInfo}
    (ha : getSubnetInfo a = some ia) (hb : getSubnetInfo b = some ib) :
    (cidrContains a b = true ∧ cidrContains b a = false) ↔
      (ia.networkInt ≤ ib.networkInt ∧ ib.broadcastInt ≤ ia.broadcastInt ∧
        ia.pfx < ib.pfx) := by
  rw [cidrContains_eq_of ha hb, cidrContains_eq_of hb ha]
  simp only [Bool.and_eq_true, decide_eq_true_eq, Bool.and_eq_false_iff,
    decide_eq_false_iff_not]
  obtain ⟨hpa, _, _, hbca, _, _⟩ := getSubnetInfo_props ha
  obtain ⟨hpb, _, _, hbcb, _, _⟩ := getSubnetInfo_props hb
  constructor
  · rintro ⟨⟨hn, hc⟩, hrev⟩
    refine ⟨hn, hc, ?_⟩
    have hle := pfx_le_of_range_le ha hb hn hc
    rcases Nat.lt_or_ge ia.pfx ib.pfx with hlt | hge
    · exact hlt
    · have heq : ia.pfx = ib.pfx := by omega
      rw [heq] at hbca
      rcases hrev with h1 | h1 <;> omega
  · rintro ⟨hn, hc, hlt⟩
    refine ⟨⟨hn, hc⟩, ?_⟩
    by_contra hrev
    push_neg at hrev
    obtain ⟨h1, h2⟩ := hrev
    have := pfx_le_of_range_le hb ha h1 h2
    omega

/-- Two aligned blocks that share a point nest: the smaller lies inside the
larger. -/
theorem aligned_blocks_nested {a ka b kb x : Nat} (hka : a % 2 ^ ka = 0)
    (hkb : b % 2 ^ kb = 0) (hk : ka ≤ kb)
    (hxa1 : a ≤ x) (hxa2 : x ≤ a + (2 ^ ka - 1))
    (hxb1 : b ≤ x) (hxb2 : x ≤ b + (2 ^ kb - 1)) :
    b ≤ a ∧ a + (2 ^ ka - 1) ≤ b + (2 ^ kb - 1) := by
  have hpa : 0 < 2 ^ ka := Nat.pos_pow_of_pos _ (by norm_num)
  have hpb : 0 < 2 ^ kb := Nat.pos_pow_of_pos _ (by norm_num)
  have hdma := Nat.div_add_mod x (2 ^ ka)
  have hdmb := Nat.div_add_mod x (2 ^ kb)
  have ha2 : a = 2 ^ ka * (x / 2 ^ ka) := by
    have hqa := Nat.div_mul_cancel (Nat.dvd_of_mod_eq_zero hka)
    have hx : x / 2 ^ ka = a / 2 ^ ka := by
      apply Nat.div_eq_of_lt_le
      · rw [hqa]; exact hxa1
      · calc x ≤ a + (2 ^ ka - 1) := hxa2
          _ < (a / 2 ^ ka + 1) * 2 ^ ka := by
              rw [Nat.add_mul, Nat.one_mul, hqa]; omega
    rw [hx, Nat.mul_comm (2 ^ ka) (a / 2 ^ ka), hqa]
  have hb2 : b = 2 ^ kb * (x / 2 ^ kb) := by
    have hqb := Nat.div_mul_cancel (Nat.dvd_of_mod_eq_zero hkb)
    have hx : x / 2 ^ kb = b / 2 ^ kb := by
      apply Nat.div_eq_of_lt_le
      · rw [hqb]; exact hxb1
      · calc x ≤ b + (2 ^ kb - 1) := hxb2
          _ < (b / 2 ^ kb + 1) * 2 ^ kb := by
              rw [Nat.add_mul, Nat.one_mul, hqb]; omega
    rw [hx, Nat.mul_comm (2 ^ kb) (b / 2 ^ kb), hqb]
  have hmodle : x % 2 ^ ka ≤ x % 2 ^ kb := by
    rw [← Nat.mod_mod_of_dvd x (pow_dvd_pow 2 hk)]
    exact Nat.mod_le _ _
  constructor
  · omega
  · -- x % 2 ^ kb - x % 2 ^ ka ≤ 2 ^ kb - 2 ^ ka, via the base-2^ka digits of
    -- the remainder
    have hmm : x % 2 ^ kb % 2 ^ ka = x % 2 ^ ka :=
      Nat.mod_mod_of_dvd x (pow_dvd_pow 2 hk)
    have hq := Nat.div_add_mod (x % 2 ^ kb) (2 ^ ka)
    rw [hmm] at hq
    have hBlt : x % 2 ^ kb < 2 ^ kb := Nat.mod_lt _ hpb
    have hsplit : 2 ^ kb = 2 ^ (kb - ka) * 2 ^ ka := by
      rw [← pow_add]; congr 1; omega
    have hqlt : x % 2 ^ kb / 2 ^ ka < 2 ^ (kb - ka) := by
      by_contra hcon
      push_neg at hcon
      have h1 : 2 ^ (kb - ka) * 2 ^ ka ≤ x % 2 ^ kb / 2 ^ ka * 2 ^ ka :=
        Nat.mul_le_mul_right _ hcon
      have h2 : x % 2 ^ kb / 2 ^ ka * 2 ^ ka ≤ x % 2 ^ kb := Nat.div_mul_le_self _ _
      omega
    have hstep : (x % 2 ^ kb / 2 ^ ka + 1) * 2 ^ ka ≤ 2 ^ kb := by
      conv_rhs => rw [hsplit]
      exact Nat.mul_le_mul_right _ (by omega)
    have hexp : (x % 2 ^ kb / 2 ^ ka + 1) * 2 ^ ka =
        2 ^ ka * (x % 2 ^ kb / 2 ^ ka) + 2 ^ ka := by ring
    have hik : 2 ^ ka * (x % 2 ^ kb / 2 ^ ka) + 2 ^ ka ≤ 2 ^ kb := by
      rw [← hexp]
      exact hstep
    omega

theorem cidrContains_parses {a b : Str} (h : cidrContains a b = true) :
    ∃ ia ib, getSubnetInfo a = some ia ∧ getSubnetInfo b = some ib := by
  unfold cidrContains at h
  match ha : getSubnetInfo a, hb : getSubnetInfo b with
  | some ia, some ib => exact ⟨ia, ib, rfl, rfl⟩
  | some ia, none => rw [ha, hb] at h; exact Bool.noConfusion h
  | none, some ib => rw [ha, hb] at h; exact Bool.noConfusion h
  | none, none => rw [ha, hb] at h; exact Bool.noConfusion h

/-- Under a strictly-contained candidate block, the code's intermediate
test (prefix strictly between, range containing the candidate) coincides
with the spec-level one (strictly inside the scope and strictly containing
the candidate). -/
theorem blocker_equiv {scope ecidr : Str} {info ce : SubnetInfo}
    (hscope : getSubnetInfo scope = some info) (hce : getSubnetInfo ecidr = some ce)
    (hcand1 : info.networkInt ≤ ce.networkInt)
    (hcand2 : ce.broadcastInt ≤ info.broadcastInt) (mcidr : Str) :
    (∃ mi, getSubnetInfo mcidr = some mi ∧ info.pfx < mi.pfx ∧ mi.pfx < ce.pfx ∧
      mi.networkInt ≤ ce.networkInt ∧ ce.broadcastInt ≤ mi.broadcastInt) ↔
    (cidrContains scope mcidr = true ∧ cidrContains mcidr scope = false ∧
      cidrContains mcidr ecidr = true ∧ cidrContains ecidr mcidr = false) := by
  obtain ⟨hpi, hni, hali, hbci, _, _⟩ := getSubnetInfo_props hscope
  obtain ⟨hpe, hne, hale, hbce, _, _⟩ := getSubnetInfo_props hce
  constructor
  · rintro ⟨mi, hmi, h1, h2, h3, h4⟩
    obtain ⟨hpm, hnm, halm, hbcm, _, _⟩ := getSubnetInfo_props hmi
    have hcepos : ce.networkInt ≤ ce.broadcastInt := by
      have : 0 < 2 ^ (32 - ce.pfx) := Nat.pos_pow_of_pos _ (by norm_num)
      omega
    have hnested := @aligned_blocks_nested _ _ _ _ ce.networkInt halm hali
      (by
        have h32 : 32 - mi.pfx ≤ 32 - info.pfx := by omega
        exact h32)
      h3 (by omega) hcand1 (by omega)
    have hinside : info.networkInt ≤ mi.networkInt ∧ mi.broadcastInt ≤ info.broadcastInt := by
      obtain ⟨hb1, hb2⟩ := hnested
      constructor
      · omega
      · omega
    refine ⟨((strict_contains_iff hscope hmi).mpr ⟨hinside.1, hinside.2, h1⟩).1,
      ((strict_contains_iff hscope hmi).mpr ⟨hinside.1, hinside.2, h1⟩).2,
      ((strict_contains_iff hmi hce).mpr ⟨h3, h4, h2⟩).1,
      ((strict_contains_iff hmi hce).mpr ⟨h3, h4, h2⟩).2⟩
  · rintro ⟨hs1, hs2, hm1, hm2⟩
    obtain ⟨_, mi, _, hmi⟩ := cidrContains_parses hs1
    obtain ⟨hin1, hin2, hplt⟩ := (strict_contains_iff hscope hmi).mp ⟨hs1, hs2⟩
    obtain ⟨hme1, hme2, hplt2⟩ := (strict_contains_iff hmi hce).mp ⟨hm1, hm2⟩
    exact ⟨mi, hmi, hplt, hplt2, hme1, hme2⟩

theorem directChildrenCanvas_iff (rootCidr : Str) (set : List SubnetEntry)
    (e : SubnetEntry) :
    e ∈ directChildrenCanvas rootCidr set ↔
      e ∈ set ∧ e.parentCidr = rootCidr ∧ cidrContains rootCidr e.cidr = true := by
  unfold directChildrenCanvas
  cases hroot : getSubnetInfo rootCidr with
  | none =>
    simp only [List.not_mem_nil, false_iff]
    rintro ⟨_, _, hcontains⟩
    rw [cidrContains_false_left hroot] at hcontains
    exact Bool.noConfusion hcontains
  | some root =>
    rw [List.mem_filter]
    constructor
    · rintro ⟨hmem, hpred⟩
      by_cases hp : e.parentCidr = rootCidr
      · refine ⟨hmem, hp, ?_⟩
        rw [if_neg (by simpa using hp)] at hpred
        cases hce : getSubnetInfo e.cidr with
        | none => rw [hce] at hpred; exact Bool.noConfusion hpred
        | some ce =>
          rw [hce] at hpred
          rw [cidrContains_eq_of hroot hce]
          exact hpred
      · rw [if_pos (by simpa using hp)] at hpred
        exact Bool.noConfusion hpred
    · rintro ⟨hmem, hp, hcontains⟩
      refine ⟨hmem, ?_⟩
      rw [if_neg (by simpa using hp)]
      obtain ⟨_, ce, _, hce⟩ := cidrContains_parses hcontains
      rw [hce]
      rw [cidrContains_eq_of hroot hce] at hcontains
      exact hcontains

theorem directChildrenBlock_iff (scope : Str) (set : List SubnetEntry)
    (e : SubnetEntry) :
    e ∈ directChildrenBlock scope set ↔
      e ∈ set ∧ cidrContains scope e.cidr = true ∧ cidrContains e.cidr scope = false ∧
        ¬ ∃ m ∈ set, m.cidr ≠ e.cidr ∧ cidrContains scope m.cidr = true ∧
          cidrContains m.cidr scope = false ∧ cidrContains m.cidr e.cidr = true ∧
          cidrContains e.cidr m.cidr = false := by
  unfold directChildrenBlock
  cases hscope : getSubnetInfo scope with
  | none =>
    simp only [List.not_mem_nil, false_iff]
    rintro ⟨_, hcontains, _⟩
    rw [cidrContains_false_left hscope] at hcontains
    exact Bool.noConfusion hcontains
  | some info =>
    rw [List.mem_filter]
    cases hce : getSubnetInfo e.cidr with
    | none =>
      constructor
      · rintro ⟨_, hpred⟩
        simp only [hce] at hpred
        exact Bool.noConfusion hpred
      · rintro ⟨_, hcontains, _⟩
        rw [cidrContains_false_right hce] at hcontains
        exact Bool.noConfusion hcontains
    | some ce =>
      obtain ⟨hpi, hni, hali, hbci, _, _⟩ := getSubnetInfo_props hscope
      obtain ⟨hpe, hnee, hale, hbce, _, _⟩ := getSubnetInfo_props hce
      have hblocker : ∀ m : SubnetEntry,
          ((if m.cidr = e.cidr then false
            else
              match getSubnetInfo m.cidr with
              | none => false
              | some otherInfo =>
                decide (otherInfo.pfx > info.pfx) && decide (otherInfo.pfx < ce.pfx) &&
                  decide (ce.networkInt ≥ otherInfo.networkInt) &&
                  decide (ce.broadcastInt ≤ otherInfo.broadcastInt)) = true) ↔
          (m.cidr ≠ e.cidr ∧ ∃ mi, getSubnetInfo m.cidr = some mi ∧ info.pfx < mi.pfx ∧
            mi.pfx < ce.pfx ∧ mi.networkInt ≤ ce.networkInt ∧
            ce.broadcastInt ≤ mi.broadcastInt) := by
        intro m
        by_cases hmc : m.cidr = e.cidr
        · simp [hmc]
        · rw [if_neg hmc]
          cases hmi : getSubnetInfo m.cidr with
          | none => simp [hmc, hmi]
          | some mi =>
            simp only [Bool.and_eq_true, decide_eq_true_eq, ne_eq, hmc,
              not_false_eq_true, true_and, Option.some.injEq]
            constructor
            · rintro ⟨⟨⟨h1, h2⟩, h3⟩, h4⟩
              exact ⟨mi, rfl, h1, h2, h3, h4⟩
            · rintro ⟨mi', hmi', h1, h2, h3, h4⟩
              cases hmi'
              exact ⟨⟨⟨h1, h2⟩, h3⟩, h4⟩
      constructor
      · rintro ⟨hmem, hpred⟩
        simp only [hce] at hpred
        by_cases h1 : ce.pfx ≤ info.pfx
        · rw [if_pos h1] at hpred; exact Bool.noConfusion hpred
        · rw [if_neg h1] at hpred
          by_cases h2 : ce.networkInt < info.networkInt ∨ ce.broadcastInt > info.broadcastInt
          · rw [if_pos h2] at hpred; exact Bool.noConfusion hpred
          · rw [if_neg h2] at hpred
            push_neg at h2
            obtain ⟨h2a, h2b⟩ := h2
            have hstrict := (strict_contains_iff hscope hce).mpr
              ⟨by omega, by omega, by omega⟩
            refine ⟨hmem, hstrict.1, hstrict.2, ?_⟩
            rintro ⟨m, hm, hmne, hb1, hb2, hb3, hb4⟩
            have hcode := (blocker_equiv hscope hce (by omega) (by omega) m.cidr).mpr
              ⟨hb1, hb2, hb3, hb4⟩
            have hf := (hblocker m).mpr ⟨hmne, hcode⟩
            rw [Bool.not_eq_true', List.any_eq_false] at hpred
            exact absurd hf (hpred m hm)
      · rintro ⟨hmem, hc1, hc2, hnob⟩
        obtain ⟨hin1, hin2, hplt⟩ := (strict_contains_iff hscope hce).mp ⟨hc1, hc2⟩
        refine ⟨hmem, ?_⟩
        simp only [hce]
        rw [if_neg (by omega), if_neg (by omega)]
        rw [Bool.not_eq_true', List.any_eq_false]
        intro m hm hf
        obtain ⟨hmne, hcode⟩ := (hblocker m).mp hf
        have hclaim := (blocker_equiv hscope hce (by omega) (by omega) m.cidr).mp hcode
        exact hnob ⟨m, hm, hmne, hclaim.1, hclaim.2.1, hclaim.2.2.1, hclaim.2.2.2⟩

/-- Claim C2 (corrected): membership in the canvas's `directChildren` is
the stored `parentCidr` equalling the scope's cidr text plus containment in
the scope; membership in the block component's `directChildren` is purely
geometric, but strict — the entry's block must be strictly inside the scope
(an entry whose block equals the scope is not a child), and only an entry
with a different cidr strictly between the two blocks shields it. -/
theorem directChildren_characterization :
    (∀ (rootCidr : Str) (set : List SubnetEntry) (e : SubnetEntry),
      e ∈ directChildrenCanvas rootCidr set ↔
        e ∈ set ∧ e.parentCidr = rootCidr ∧ cidrContains rootCidr e.cidr = true) ∧
    (∀ (scope : Str) (set : List SubnetEntry) (e : SubnetEntry),
      e ∈ directChildrenBlock scope set ↔
        e ∈ set ∧ cidrContains scope e.cidr = true ∧ cidrContains e.cidr scope = false ∧
          ¬ ∃ m ∈ set, m.cidr ≠ e.cidr ∧ cidrContains scope m.cidr = true ∧
            cidrContains m.cidr scope = false ∧ cidrContains m.cidr e.cidr = true ∧
            cidrContains e.cidr m.cidr = false) :=
  ⟨directChildrenCanvas_iff, directChildrenBlock_iff⟩

/-- Counterexample to C2 as stated.  Canvas: two entries with the same
block but different stored `parentCidr` values get different memberships,
so membership does not depend on the blocks alone.  Block component: an
entry whose block equals the scope is never returned although the claim's
inclusive `contains(scope, e.block)` holds for it with no distinct-block
ancestor in the set, and it fails to shield the nested `/24`, which is
returned although the claim's intermediate-ancestor clause excludes it. -/
theorem directChildren_counterexample :
    directChildrenCanvas "10.0.0.0/16".toList
        [{ id := "x".toList, cidr := "10.0.0.0/24".toList, name := [],
           colorLabelId := none, parentCidr := "10.0.0.0/16".toList, notes := none }] =
      [{ id := "x".toList, cidr := "10.0.0.0/24".toList, name := [],
         colorLabelId := none, parentCidr := "10.0.0.0/16".toList, notes := none }] ∧
    directChildrenCanvas "10.0.0.0/16".toList
        [{ id := "x".toList, cidr := "10.0.0.0/24".toList, name := [],
           colorLabelId := none, parentCidr := "10.0.0.0/8".toList, notes := none }] = [] ∧
    cidrContains "10.0.0.0/16".toList "10.0.0.0/24".toList = true ∧
    directChildrenBlock "10.0.0.0/16".toList
        [{ id := "m".toList, cidr := "10.0.0.0/16".toList, name := [],
           colorLabelId := none, parentCidr := "10.0.0.0/8".toList, notes := none },
         { id := "y".toList, cidr := "10.0.0.0/24".toList, name := [],
           colorLabelId := none, parentCidr := "10.0.0.0/16".toList, notes := none }] =
      [{ id := "y".toList, cidr := "10.0.0.0/24".toList, name := [],
         colorLabelId := none, parentCidr := "10.0.0.0/16".toList, notes := none }] ∧
    cidrContains "10.0.0.0/16".toList "10.0.0.0/16".toList = true ∧
    cidrContains "10.0.0.0/16".toList "10.0.0.0/24".toList = true ∧
    ("10.0.0.0/16".toList ≠ "10.0.0.0/24".toList) ∧
    cidrContains "10.0.0.0/24".toList "10.0.0.0/16".toList = false :=
  ⟨by decide, by decide, by decide, by decide, by decide, by decide, by decide, by decide⟩

/-- Claim C10: every syntactically valid CIDR text is accepted by
`getSubnetInfo`, which describes the normalized block (its `cidr` field is
`normalizeCidr` of the input and its network integer is block-aligned); and
every CIDR string the core emits — from `normalizeCidr`, `getSubnetInfo`,
`splitCidr` and the gap filler — is itself normalized (re-normalizing it
returns it unchanged). -/
theorem normalization_invariant :
    (∀ (s ip : Str) (p : Nat), parseCidr s = some (ip, p) →
      ∃ info, getSubnetInfo s = some info ∧ normalizeCidr s = some info.cidr ∧
        info.networkInt % 2 ^ (32 - info.pfx) = 0) ∧
    (∀ s t : Str, normalizeCidr s = some t → normalizeCidr t = some t) ∧
    (∀ (s : Str) (info : SubnetInfo), getSubnetInfo s = some info →
      normalizeCidr info.cidr = some info.cidr) ∧
    (∀ (parent : Str) (cp : Nat) (c : Str), c ∈ splitCidr parent cp →
      normalizeCidr c = some c) ∧
    (∀ (gs ge p : Nat) (c : Str), p ≤ 32 → ge < 2 ^ 32 →
      firstAlignedCidr gs ge p = some c → normalizeCidr c = some c) := by
  have hemitted : ∀ (s : Str) (info : SubnetInfo), getSubnetInfo s = some info →
      normalizeCidr info.cidr = some info.cidr := by
    intro s info h
    obtain ⟨hp, hn, hal, _, _, hcidr⟩ := getSubnetInfo_props h
    rw [hcidr]
    exact normalizeCidr_emit hn hp hal
  refine ⟨?_, ?_, hemitted, ?_, ?_⟩
  · intro s ip p hparse
    have hex : ∃ info, getSubnetInfo s = some info := by
      unfold getSubnetInfo
      rw [hparse]
      exact ⟨_, rfl⟩
    obtain ⟨info, hinfo⟩ := hex
    obtain ⟨_, _, hal, _, _, _⟩ := getSubnetInfo_props hinfo
    refine ⟨info, hinfo, ?_, hal⟩
    rw [normalizeCidr_eq_info_cidr, hinfo]
    rfl
  · intro s t h
    rw [normalizeCidr_eq_info_cidr s] at h
    obtain ⟨info, hinfo, hcid⟩ := Option.map_eq_some'.mp h
    rw [← hcid]
    exact hemitted s info hinfo
  · intro parent cp c hc
    unfold splitCidr at hc
    match hp : getSubnetInfo parent with
    | none => rw [hp] at hc; simp at hc
    | some info =>
      simp only [hp] at hc
      by_cases hguard : cp ≤ info.pfx ∨ cp > 32
      · rw [if_pos hguard] at hc; simp at hc
      · rw [if_neg hguard] at hc
        push_neg at hguard
        obtain ⟨hcp1, hcp2⟩ := hguard
        obtain ⟨hple, hnlt, hal, _, _, _⟩ := getSubnetInfo_props hp
        obtain ⟨i, hi, rfl⟩ := List.mem_map.mp hc
        rw [List.mem_range] at hi
        have hbs : 0 < 2 ^ (32 - cp) := Nat.pos_pow_of_pos _ (by norm_num)
        have hsize : 2 ^ (cp - info.pfx) * 2 ^ (32 - cp) = 2 ^ (32 - info.pfx) := by
          rw [← pow_add]
          congr 1
          omega
        have hibound : i * 2 ^ (32 - cp) + 2 ^ (32 - cp) ≤ 2 ^ (32 - info.pfx) := by
          have h1 : (i + 1) * 2 ^ (32 - cp) ≤ 2 ^ (cp - info.pfx) * 2 ^ (32 - cp) :=
            Nat.mul_le_mul_right _ (by omega)
          rw [hsize] at h1
          calc i * 2 ^ (32 - cp) + 2 ^ (32 - cp) = (i + 1) * 2 ^ (32 - cp) := by ring
            _ ≤ 2 ^ (32 - info.pfx) := h1
        have hroom := aligned_add_size_le hnlt (by omega) hal
        have hNlt : info.networkInt + i * 2 ^ (32 - cp) < 2 ^ 32 := by omega
        have hmod : (info.networkInt + i * 2 ^ (32 - cp)) % 2 ^ 32 =
            info.networkInt + i * 2 ^ (32 - cp) := Nat.mod_eq_of_lt hNlt
        have hNal : (info.networkInt + i * 2 ^ (32 - cp)) % 2 ^ (32 - cp) = 0 := by
          have hd1 : (2 : Nat) ^ (32 - cp) ∣ 2 ^ (32 - info.pfx) :=
            pow_dvd_pow 2 (by omega)
          have hd2 : (2 : Nat) ^ (32 - info.pfx) ∣ info.networkInt :=
            Nat.dvd_of_mod_eq_zero hal
          exact Nat.dvd_iff_mod_eq_zero.mp
            (dvd_add (hd1.trans hd2) (Dvd.intro i (Nat.mul_comm _ _)))
        rw [hmod]
        exact normalizeCidr_emit hNlt (by omega) hNal
  · intro gs ge p c hp hge hc
    rw [firstAlignedCidr_eq] at hc
    by_cases h : (gs + 2 ^ (32 - p) - 1) / 2 ^ (32 - p) * 2 ^ (32 - p) +
        2 ^ (32 - p) - 1 > ge
    · rw [if_pos h] at hc
      exact absurd hc (by simp)
    · rw [if_neg h] at hc
      push_neg at h
      have hbs : 0 < 2 ^ (32 - p) := Nat.pos_pow_of_pos _ (by norm_num)
      have hcandlt : (gs + 2 ^ (32 - p) - 1) / 2 ^ (32 - p) * 2 ^ (32 - p) < 2 ^ 32 := by
        omega
      have hmod : (gs + 2 ^ (32 - p) - 1) / 2 ^ (32 - p) * 2 ^ (32 - p) % 2 ^ 32 =
          (gs + 2 ^ (32 - p) - 1) / 2 ^ (32 - p) * 2 ^ (32 - p) :=
        Nat.mod_eq_of_lt hcandlt
      rw [hmod] at hc
      rw [← Option.some.inj hc]
      exact normalizeCidr_emit hcandlt hp (Nat.mul_mod_left _ _)

theorem insertByKey_perm (key : α → Nat) (x : α) :
    ∀ l : List α, (insertByKey key x l).Perm (x :: l) := by
  intro l
  induction l with
  | nil => rfl
  | cons y ys ih =>
    simp only [insertByKey]
    by_cases hy : key y < key x
    · rw [if_pos hy]
      exact (List.Perm.cons y ih).trans (List.Perm.swap x y ys)
    · rw [if_neg hy]

theorem sortByKey_perm (key : α → Nat) : ∀ l : List α, (sortByKey key l).Perm l := by
  intro l
  induction l with
  | nil => rfl
  | cons x xs ih =>
    simp only [sortByKey]
    exact (insertByKey_perm key x (sortByKey key xs)).trans (List.Perm.cons x ih)

theorem insertByKey_pairwise {key : α → Nat} (x : α) :
    ∀ {l : List α}, l.Pairwise (fun a b => key a ≤ key b) →
      (insertByKey key x l).Pairwise (fun a b => key a ≤ key b) := by
  intro l
  induction l with
  | nil => intro _; exact List.pairwise_singleton _ x
  | cons y ys ih =>
    intro h
    obtain ⟨hy, hys⟩ := List.pairwise_cons.mp h
    simp only [insertByKey]
    by_cases hlt : key y < key x
    · rw [if_pos hlt]
      refine List.pairwise_cons.mpr ⟨?_, ih hys⟩
      intro z hz
      rcases List.mem_cons.mp (((insertByKey_perm key x ys).mem_iff).mp hz) with rfl | hz'
      · omega
      · exact hy z hz'
    · rw [if_neg hlt]
      refine List.pairwise_cons.mpr ⟨?_, h⟩
      intro z hz
      rcases List.mem_cons.mp hz with rfl | hz'
      · omega
      · have := hy z hz'
        omega

theorem sortByKey_pairwise (key : α → Nat) :
    ∀ l : List α, (sortByKey key l).Pairwise (fun a b => key a ≤ key b) := by
  intro l
  induction l with
  | nil => exact List.Pairwise.nil
  | cons x xs ih => exact insertByKey_pairwise x ih

theorem isChain_bounds : ∀ (segs : List Segment) (lo hi : Nat), IsChain segs lo hi →
    ∀ s ∈ segs, lo ≤ s.start ∧ s.endI ≤ hi := by
  intro segs
  induction segs with
  | nil => intro lo hi _ s hs; simp at hs
  | cons seg rest ih =>
    intro lo hi h s hs
    obtain ⟨h1, h2, h3, h4⟩ := h
    rcases List.mem_cons.mp hs with rfl | hs'
    · omega
    · obtain ⟨ha, hb⟩ := ih _ _ h4 s hs'
      omega

theorem isChain_pairwise : ∀ (segs : List Segment) (lo hi : Nat), IsChain segs lo hi →
    segs.Pairwise (fun a b => a.endI < b.start) := by
  intro segs
  induction segs with
  | nil => intro _ _ _; exact List.Pairwise.nil
  | cons seg rest ih =>
    intro lo hi h
    obtain ⟨h1, h2, h3, h4⟩ := h
    refine List.pairwise_cons.mpr ⟨?_, ih _ _ h4⟩
    intro b hb
    have := (isChain_bounds rest _ _ h4 b hb).1
    omega

theorem isChain_cover : ∀ (segs : List Segment) (lo hi : Nat), IsChain segs lo hi →
    ∀ n, (lo ≤ n ∧ n ≤ hi) ↔ ∃ s ∈ segs, s.start ≤ n ∧ n ≤ s.endI := by
  intro segs
  induction segs with
  | nil =>
    intro lo hi h n
    simp only [List.not_mem_nil, false_and, exists_const, exists_false, iff_false]
    simp only [IsChain] at h
    omega
  | cons seg rest ih =>
    intro lo hi h n
    obtain ⟨h1, h2, h3, h4⟩ := h
    constructor
    · rintro ⟨hn1, hn2⟩
      by_cases hcase : n ≤ seg.endI
      · exact ⟨seg, by simp, by omega, hcase⟩
      · obtain ⟨s, hs, hsn⟩ := ((ih _ _ h4 n).mp (by omega))
        exact ⟨s, by simp [hs], hsn⟩
    · rintro ⟨s, hs, hs1, hs2⟩
      rcases List.mem_cons.mp hs with rfl | hs'
      · omega
      · have hb := isChain_bounds rest _ _ h4 s hs'
        have := (ih _ _ h4 n).mpr ⟨s, hs', hs1, hs2⟩
        omega

theorem walk_chain (root : SubnetInfo) :
    ∀ (l : List (SubnetEntry × SubnetInfo)) (cursor : Nat),
      cursor ≤ root.broadcastInt + 1 →
      (∀ x ∈ l, cursor ≤ x.2.networkInt ∧ x.2.networkInt ≤ x.2.broadcastInt ∧
        x.2.broadcastInt ≤ root.broadcastInt) →
      l.Pairwise (fun a b => a.2.broadcastInt < b.2.networkInt) →
      IsChain (buildSegmentsWalk root cursor l) cursor root.broadcastInt := by
  intro l
  induction l with
  | nil =>
    intro cursor h1 _ _
    simp only [buildSegmentsWalk]
    by_cases hc : cursor ≤ root.broadcastInt
    · rw [if_pos hc]
      exact ⟨rfl, hc, le_refl _, rfl⟩
    · rw [if_neg hc]
      show cursor = root.broadcastInt + 1
      omega
  | cons x l ih =>
    intro cursor h1 h2 h3
    obtain ⟨hx1, hx2, hx3⟩ := h2 x (by simp)
    obtain ⟨hhead, htail⟩ := List.pairwise_cons.mp h3
    have hihyp : ∀ y ∈ l, x.2.broadcastInt + 1 ≤ y.2.networkInt ∧
        y.2.networkInt ≤ y.2.broadcastInt ∧ y.2.broadcastInt ≤ root.broadcastInt := by
      intro y hy
      obtain ⟨_, hb, hc⟩ := h2 y (by simp [hy])
      exact ⟨by have := hhead y hy; omega, hb, hc⟩
    have hrest := ih (x.2.broadcastInt + 1) (by omega)
      (fun y hy => ⟨(hihyp y hy).1, (hihyp y hy).2.1, (hihyp y hy).2.2⟩) htail
    simp only [buildSegmentsWalk]
    by_cases hgt : x.2.networkInt > cursor
    · rw [if_pos hgt]
      simp only [List.singleton_append]
      refine ⟨rfl, show cursor ≤ x.2.networkInt - 1 by omega,
        show x.2.networkInt - 1 ≤ root.broadcastInt by omega, ?_⟩
      show IsChain _ (x.2.networkInt - 1 + 1) root.broadcastInt
      have heq : x.2.networkInt - 1 + 1 = x.2.networkInt := by omega
      rw [heq]
      exact ⟨rfl, hx2, hx3, hrest⟩
    · rw [if_neg hgt]
      simp only [List.nil_append]
      have heq : x.2.networkInt = cursor := by omega
      exact ⟨heq, hx2, hx3, hrest⟩

/-- Claim C1 (corrected): for a parsable scope and entries whose blocks
parse, lie within the scope and are pairwise disjoint (no overlap, not even
by containment), `buildSegments` emits a chain of segments — ascending,
contiguous, pairwise non-overlapping — whose union is exactly the scope's
closed address range; with no entries at all the result is the single free
segment spanning the scope. -/
theorem buildSegments_totality (rootCidr : Str) (subnets : List SubnetEntry)
    (root : SubnetInfo) (hroot : getSubnetInfo rootCidr = some root)
    (hin : ∀ e ∈ subnets, ∃ i, getSubnetInfo e.cidr = some i ∧
      root.networkInt ≤ i.networkInt ∧ i.broadcastInt ≤ root.broadcastInt)
    (hdisj : subnets.Pairwise (fun a b => ∀ ia ib, getSubnetInfo a.cidr = some ia →
      getSubnetInfo b.cidr = some ib →
      ia.broadcastInt < ib.networkInt ∨ ib.broadcastInt < ia.networkInt)) :
    IsChain (buildSegments rootCidr subnets) root.networkInt root.broadcastInt ∧
    (buildSegments rootCidr subnets).Pairwise (fun a b => a.endI < b.start) ∧
    (∀ n, (root.networkInt ≤ n ∧ n ≤ root.broadcastInt) ↔
      ∃ s ∈ buildSegments rootCidr subnets, s.start ≤ n ∧ n ≤ s.endI) ∧
    (subnets = [] → buildSegments rootCidr subnets =
      [freeSeg root.networkInt root.broadcastInt
        (root.broadcastInt - root.networkInt + 1)]) := by
  obtain ⟨hple, hnlt, hal, hbc, _, _⟩ := getSubnetInfo_props hroot
  have hszpos : 0 < 2 ^ (32 - root.pfx) := Nat.pos_pow_of_pos _ (by norm_num)
  have hlo : root.networkInt ≤ root.broadcastInt := by omega
  have hchain : IsChain (buildSegments rootCidr subnets)
      root.networkInt root.broadcastInt := by
    unfold buildSegments
    simp only [hroot]
    have hmem : ∀ x ∈ subnets.filterMap
        (fun s => (getSubnetInfo s.cidr).map (fun i => (s, i))),
        getSubnetInfo x.1.cidr = some x.2 ∧ x.1 ∈ subnets := by
      intro x hx
      rw [List.mem_filterMap] at hx
      obtain ⟨a, ha, hfa⟩ := hx
      obtain ⟨i, hi, hx2⟩ := Option.map_eq_some'.mp hfa
      rw [← hx2]
      exact ⟨hi, ha⟩
    have hmemb : ∀ x ∈ subnets.filterMap
        (fun s => (getSubnetInfo s.cidr).map (fun i => (s, i))),
        root.networkInt ≤ x.2.networkInt ∧ x.2.networkInt ≤ x.2.broadcastInt ∧
          x.2.broadcastInt ≤ root.broadcastInt := by
      intro x hx
      obtain ⟨hparse, hx1⟩ := hmem x hx
      obtain ⟨i', hi', hb1, hb2⟩ := hin x.1 hx1
      rw [hparse] at hi'
      obtain rfl := Option.some.inj hi'
      obtain ⟨_, _, _, hbcx, _, _⟩ := getSubnetInfo_props hparse
      have : 0 < 2 ^ (32 - x.2.pfx) := Nat.pos_pow_of_pos _ (by norm_num)
      exact ⟨hb1, by omega, hb2⟩
    have hpair : (subnets.filterMap
        (fun s => (getSubnetInfo s.cidr).map (fun i => (s, i)))).Pairwise
        (fun a b => a.2.broadcastInt < b.2.networkInt ∨
          b.2.broadcastInt < a.2.networkInt) := by
      rw [List.pairwise_filterMap]
      refine hdisj.imp ?_
      intro a b hab x hx y hy
      rw [Option.mem_def] at hx hy
      obtain ⟨ia, hia, hxa⟩ := Option.map_eq_some'.mp hx
      obtain ⟨ib, hib, hyb⟩ := Option.map_eq_some'.mp hy
      rw [← hxa, ← hyb]
      exact hab ia ib hia hib
    have hperm := sortByKey_perm (fun x => x.2.networkInt)
      (subnets.filterMap (fun s => (getSubnetInfo s.cidr).map (fun i => (s, i))))
    have hsorted_mem : ∀ x ∈ sortByKey (fun x => x.2.networkInt)
        (subnets.filterMap (fun s => (getSubnetInfo s.cidr).map (fun i => (s, i)))),
        root.networkInt ≤ x.2.networkInt ∧ x.2.networkInt ≤ x.2.broadcastInt ∧
          x.2.broadcastInt ≤ root.broadcastInt :=
      fun x hx => hmemb x (hperm.mem_iff.mp hx)
    have hsorted_pair := sortByKey_pairwise (fun x => x.2.networkInt)
      (subnets.filterMap (fun s => (getSubnetInfo s.cidr).map (fun i => (s, i))))
    have hsorted_disj := (hperm.pairwise_iff (fun h => h.symm)).mpr hpair
    have hcomb := (hsorted_pair.and hsorted_disj).imp_of_mem
      (fun {a b} hma hmb hab => by
        obtain ⟨hkey, hdj⟩ := hab
        obtain ⟨_, hab2, _⟩ := hsorted_mem a hma
        obtain ⟨_, hbb2, _⟩ := hsorted_mem b hmb
        rcases hdj with h | h
        · exact h
        · omega)
    have hwalk := walk_chain root
      (sortByKey (fun x => x.2.networkInt)
        (subnets.filterMap (fun s => (getSubnetInfo s.cidr).map (fun i => (s, i)))))
      root.networkInt (by omega) hsorted_mem hcomb
    exact hwalk
  refine ⟨hchain, isChain_pairwise _ _ _ hchain, isChain_cover _ _ _ hchain, ?_⟩
  intro hempty
  subst hempty
  unfold buildSegments
  simp only [hroot]
  show buildSegmentsWalk root root.networkInt [] = _
  simp only [buildSegmentsWalk]
  rw [if_pos hlo]

/-- Counterexample to C1 as stated.  Nested entries — allowed by
"non-overlapping except by containment" — produce overlapping segments: the
second allocated segment `[167772224, 167772287]` lies inside the first
`[167772160, 167772287]`.  And an entry outside the scope makes the
segments' union exceed the scope's range `[167772160, 167772415]`. -/
theorem buildSegments_counterexample :
    (buildSegments "10.0.0.0/24".toList
        [{ id := "o".toList, cidr := "10.0.0.0/25".toList, name := [],
           colorLabelId := none, parentCidr := "10.0.0.0/24".toList, notes := none },
         { id := "i".toList, cidr := "10.0.0.64/26".toList, name := [],
           colorLabelId := none, parentCidr := "10.0.0.0/25".toList, notes := none }]).map
        (fun s => (s.start, s.endI)) =
      [(167772160, 167772287), (167772224, 167772287), (167772288, 167772415)] ∧
    cidrContains "10.0.0.0/25".toList "10.0.0.64/26".toList = true ∧
    (buildSegments "10.0.0.0/24".toList
        [{ id := "f".toList, cidr := "192.168.0.0/24".toList, name := [],
           colorLabelId := none, parentCidr := "10.0.0.0/24".toList, notes := none }]).map
        (fun s => (s.start, s.endI)) =
      [(167772160, 3232235519), (3232235520, 3232235775)] :=
  ⟨by decide, by decide, by decide⟩

/-- Witness for C1 (corrected) at the spec's example: scope
`192.168.0.0/24` with the single allocation `192.168.0.0/26`. -/
theorem buildSegments_totality_witness :
    IsChain
      (buildSegments "192.168.0.0/24".toList
        [{ id := "a".toList, cidr := "192.168.0.0/26".toList, name := [],
           colorLabelId := none, parentCidr := "192.168.0.0/24".toList, notes := none }])
      3232235520 3232235775 ∧
    (buildSegments "192.168.0.0/24".toList
        [{ id := "a".toList, cidr := "192.168.0.0/26".toList, name := [],
           colorLabelId := none, parentCidr := "192.168.0.0/24".toList, notes := none }]).Pairwise
      (fun a b => a.endI < b.start) ∧
    (∀ n, (3232235520 ≤ n ∧ n ≤ 3232235775) ↔
      ∃ s ∈ buildSegments "192.168.0.0/24".toList
        [{ id := "a".toList, cidr := "192.168.0.0/26".toList, name := [],
           colorLabelId := none, parentCidr := "192.168.0.0/24".toList, notes := none }],
        s.start ≤ n ∧ n ≤ s.endI) := by
  have h := buildSegments_totality "192.168.0.0/24".toList
    [{ id := "a".toList, cidr := "192.168.0.0/26".toList, name := [],
       colorLabelId := none, parentCidr := "192.168.0.0/24".toList, notes := none }]
    { cidr := "192.168.0.0/24".toList, networkAddress := "192.168.0.0".toList,
      broadcastAddress := "192.168.0.255".toList, firstHost := "192.168.0.1".toList,
      lastHost := "192.168.0.254".toList, totalHosts := 256, usableHosts := 254,
      pfx := 24, networkInt := 3232235520, broadcastInt := 3232235775 }
    (by decide)
    (by
      intro e he
      rw [List.mem_singleton] at he
      subst he
      refine ⟨(⟨"192.168.0.0/26".toList, "192.168.0.0".toList, "192.168.0.63".toList,
        "192.168.0.1".toList, "192.168.0.62".toList, 64, 62, 26, 3232235520,
        3232235583⟩ : SubnetInfo), by decide, by decide, by decide⟩)
    (List.pairwise_singleton _ _)
  exact ⟨h.1, h.2.1, h.2.2.1⟩

/-- Claim C6: `splitCidr` returns the empty list (a silent no-op) whenever
the child prefix length is not strictly between the parent's and 33; for a
valid child prefix it returns exactly `2^(childPrefix - parent.prefix)`
blocks of size `2^(32 - childPrefix)` in ascending network-address order —
block `i` spans `[network + i*size, network + i*size + size - 1]` — tiling
the parent's range with no gaps and no overlaps (their union is exactly the
parent's range). -/
theorem splitCidr_spec (parentCidr : Str) (info : SubnetInfo) (cp : Nat)
    (hp : getSubnetInfo parentCidr = some info) :
    (∀ q : Nat, q ≤ info.pfx ∨ q > 32 → splitCidr parentCidr q = []) ∧
    (info.pfx < cp → cp ≤ 32 →
      (splitCidr parentCidr cp).length = 2 ^ (cp - info.pfx) ∧
      (∀ i (hi : i < (splitCidr parentCidr cp).length),
        ∃ bi, getSubnetInfo ((splitCidr parentCidr cp).get ⟨i, hi⟩) = some bi ∧
          bi.pfx = cp ∧ bi.networkInt = info.networkInt + i * 2 ^ (32 - cp) ∧
          bi.broadcastInt = info.networkInt + i * 2 ^ (32 - cp) + (2 ^ (32 - cp) - 1) ∧
          bi.totalHosts = 2 ^ (32 - cp)) ∧
      (∀ n, (info.networkInt ≤ n ∧ n ≤ info.broadcastInt) ↔
        ∃ i, i < 2 ^ (cp - info.pfx) ∧ info.networkInt + i * 2 ^ (32 - cp) ≤ n ∧
          n ≤ info.networkInt + i * 2 ^ (32 - cp) + (2 ^ (32 - cp) - 1))) := by
  obtain ⟨hple, hnlt, hal, hbc, _, _⟩ := getSubnetInfo_props hp
  constructor
  · intro q hq
    unfold splitCidr
    simp only [hp]
    rw [if_pos (by omega)]
  · intro hcp1 hcp2
    have hbs : 0 < 2 ^ (32 - cp) := Nat.pos_pow_of_pos _ (by norm_num)
    have hsize : 2 ^ (cp - info.pfx) * 2 ^ (32 - cp) = 2 ^ (32 - info.pfx) := by
      rw [← pow_add]
      congr 1
      omega
    have hroom := aligned_add_size_le hnlt (by omega) hal
    have hsplit_eq : splitCidr parentCidr cp =
        (List.range (2 ^ (cp - info.pfx))).map fun i =>
          intToIp ((info.networkInt + i * 2 ^ (32 - cp)) % 2 ^ 32) ++ ['/'] ++
            natToStr cp := by
      unfold splitCidr
      simp only [hp]
      rw [if_neg (by omega)]
    have hlen : (splitCidr parentCidr cp).length = 2 ^ (cp - info.pfx) := by
      rw [hsplit_eq, List.length_map, List.length_range]
    refine ⟨hlen, ?_, ?_⟩
    · intro i hi
      rw [hlen] at hi
      have hibound : i * 2 ^ (32 - cp) + 2 ^ (32 - cp) ≤ 2 ^ (32 - info.pfx) := by
        have h1 : (i + 1) * 2 ^ (32 - cp) ≤ 2 ^ (cp - info.pfx) * 2 ^ (32 - cp) :=
          Nat.mul_le_mul_right _ (by omega)
        rw [hsize] at h1
        calc i * 2 ^ (32 - cp) + 2 ^ (32 - cp) = (i + 1) * 2 ^ (32 - cp) := by ring
          _ ≤ 2 ^ (32 - info.pfx) := h1
      have hNlt : info.networkInt + i * 2 ^ (32 - cp) < 2 ^ 32 := by omega
      have hmod : (info.networkInt + i * 2 ^ (32 - cp)) % 2 ^ 32 =
          info.networkInt + i * 2 ^ (32 - cp) := Nat.mod_eq_of_lt hNlt
      have hNal : (info.networkInt + i * 2 ^ (32 - cp)) % 2 ^ (32 - cp) = 0 := by
        have hd1 : (2 : Nat) ^ (32 - cp) ∣ 2 ^ (32 - info.pfx) :=
          pow_dvd_pow 2 (by omega)
        have hd2 : (2 : Nat) ^ (32 - info.pfx) ∣ info.networkInt :=
          Nat.dvd_of_mod_eq_zero hal
        exact Nat.dvd_iff_mod_eq_zero.mp
          (dvd_add (hd1.trans hd2) (Dvd.intro i (Nat.mul_comm _ _)))
      have hget : (splitCidr parentCidr cp).get ⟨i, by rw [hlen]; exact hi⟩ =
          intToIp (info.networkInt + i * 2 ^ (32 - cp)) ++ ['/'] ++ natToStr cp := by
        simp only [hsplit_eq, List.get_eq_getElem, List.getElem_map, List.getElem_range,
          hmod]
      rw [hget]
      exact ⟨_, getSubnetInfo_emit hNlt (by omega) hNal, rfl, rfl, rfl, rfl⟩
    · intro n
      constructor
      · rintro ⟨hn1, hn2⟩
        refine ⟨(n - info.networkInt) / 2 ^ (32 - cp), ?_, ?_, ?_⟩
        · have hlt : n - info.networkInt < 2 ^ (32 - info.pfx) := by omega
          rw [Nat.div_lt_iff_lt_mul hbs]
          calc n - info.networkInt < 2 ^ (32 - info.pfx) := hlt
            _ = 2 ^ (cp - info.pfx) * 2 ^ (32 - cp) := hsize.symm
        · have h1 : (n - info.networkInt) / 2 ^ (32 - cp) * 2 ^ (32 - cp) ≤
              n - info.networkInt := Nat.div_mul_le_self _ _
          omega
        · have hdm := Nat.div_add_mod (n - info.networkInt) (2 ^ (32 - cp))
          have hmlt : (n - info.networkInt) % 2 ^ (32 - cp) < 2 ^ (32 - cp) :=
            Nat.mod_lt _ hbs
          have hcomm : (n - info.networkInt) / 2 ^ (32 - cp) * 2 ^ (32 - cp) =
              2 ^ (32 - cp) * ((n - info.networkInt) / 2 ^ (32 - cp)) :=
            Nat.mul_comm _ _
          rw [hcomm]
          omega
      · rintro ⟨i, hi, hlo, hhi⟩
        have h1 : (i + 1) * 2 ^ (32 - cp) ≤ 2 ^ (cp - info.pfx) * 2 ^ (32 - cp) :=
          Nat.mul_le_mul_right _ (by omega)
        rw [hsize] at h1
        have hexp : (i + 1) * 2 ^ (32 - cp) = i * 2 ^ (32 - cp) + 2 ^ (32 - cp) := by
          ring
        omega

/-- Witness for C6 at the spec's example: `10.0.0.0/16` split at /18. -/
theorem splitCidr_spec_witness :
    splitCidr "10.0.0.0/16".toList 15 = [] ∧
      (splitCidr "10.0.0.0/16".toList 18).length = 4 ∧
      splitCidr "10.0.0.0/16".toList 18 =
        ["10.0.0.0/18".toList, "10.0.64.0/18".toList, "10.0.128.0/18".toList,
          "10.0.192.0/18".toList] := by
  have h := splitCidr_spec "10.0.0.0/16".toList
    (⟨"10.0.0.0/16".toList, "10.0.0.0".toList, "10.0.255.255".toList,
      "10.0.0.1".toList, "10.0.255.254".toList, 65536, 65534, 16, 167772160,
      167837695⟩ : SubnetInfo) 18 (by decide)
  refine ⟨h.1 15 (by decide), ?_, by decide⟩
  have h2 := (h.2 (by decide) (by decide)).1
  simpa using h2


/-- Witness for C10 at the spec's example input `10.0.1.5/16`. -/
theorem normalization_invariant_witness :
    (∃ info, getSubnetInfo "10.0.1.5/16".toList = some info ∧
      normalizeCidr "10.0.1.5/16".toList = some info.cidr ∧
      info.networkInt % 2 ^ (32 - info.pfx) = 0) ∧
    normalizeCidr "10.0.0.0/16".toList = some "10.0.0.0/16".toList :=
  ⟨normalization_invariant.1 "10.0.1.5/16".toList "10.0.1.5".toList 16 (by decide),
    normalization_invariant.2.1 "10.0.1.5/16".toList "10.0.0.0/16".toList (by decide)⟩

end SubnetSmith
